import Mathlib

/-!
SIFT1M / SIFT1B Hamming-code converters: a shallow embedding

The two programs `SIFT1M.cpp` and `SIFT1B.cpp` turn point files into packed
random-hyperplane codes, remove duplicate codes and split the result into a
train and a query part.  This file embeds the functions of both programs as
Lean definitions and proves properties of them.

Modelling conventions.

* `std::vector<uint64_t>` is `List Nat`; a word is a natural number.  Where the
  source relies on 64-bit wrap-around (the shift in the router) the reduction
  `% 2 ^ 64` is written out.
* Loop counters and sizes (`size_t`, `int`) are natural numbers.  This is
  exact while the counters stay inside their machine range (`int` indices
  below `2 ^ 31`).  Where the source computes in a narrower type the reduction
  is written out: the block bounds of `dedup` are 32-bit unsigned products
  (`% 2 ^ 32`), the difference `n_tot - NUM_QUERIES` of the splitter is a
  `size_t` (`% 2 ^ 64`).
* Undefined behaviour (an invalid iterator range, an element access outside a
  vector) is the result `none`.
* `std::unordered_set<K>` is the list of its elements in insertion order,
  without repetition.  Its iteration order is not fixed by the language, so
  every function that iterates over a set takes the order as a parameter
  `order`, and the theorems hold for every `order` that returns a permutation
  of the elements (`IterationOrder`).
* A pseudo random generator is the stream `draw : Nat → Nat` of the values
  that successive calls `u(gen)` return.
* Points (`Eigen::VectorXd`) are lists of rationals: arithmetic is exact.
* Files are lists of words; `fread` follows the C standard.
* The argument vector of `main` is a list of strings; `atoi` is a parameter.
* The encoder class `SimHashCodes` lives in `create_lsh_codes.h`, which is not
  among the sources; it is modelled from the specification, with the
  hyperplanes as a parameter.
-/

set_option autoImplicit false

/-! ## Vectors and sets -/

/-- The words in the iterator range `[v.begin() + lo, v.begin() + hi)`. -/
def iterRange (v : List Nat) (lo hi : Nat) : List Nat :=
  (v.drop lo).take (hi - lo)

/-- Member `insert` of `std::unordered_set`: a key that is already present is
not inserted again. -/
def usetInsert {α : Type} [DecidableEq α] (s : List α) (x : α) : List α :=
  if x ∈ s then s else s ++ [x]

/-- Member `count` of `std::unordered_set`: 1 when the key is present, else 0. -/
def usetCount {α : Type} [DecidableEq α] (s : List α) (x : α) : Nat :=
  if x ∈ s then 1 else 0

/-- An admissible iteration order of an unordered set: the elements are
visited once each, in some order. -/
def IterationOrder {α : Type} (order : List α → List α) : Prop :=
  ∀ s, (order s).Perm s

/-- The codes of a packed word sequence: its consecutive blocks of `enc_dim`
words, block `i` being the words `[i * enc_dim, (i + 1) * enc_dim)`. -/
def codes (v : List Nat) (enc_dim : Nat) : List (List Nat) :=
  (List.range (v.length / enc_dim)).map
    fun i => iterRange v (i * enc_dim) ((i + 1) * enc_dim)

/-! ## `dedup` (identical in `SIFT1M.cpp` and `SIFT1B.cpp`) -/

/-- The function `dedup` of both programs.  Every block of `enc_dim` words is
inserted into an unordered set; the set is then iterated and its elements are
appended to `unique`.

The bounds of block `i` are `enc_dim * i` and `(i + 1) * enc_dim` with
`int enc_dim` and `unsigned i`: both products are computed in 32-bit unsigned
arithmetic, hence modulo `2 ^ 32`.  An iterator range that is reversed or
leaves the vector is undefined behaviour, the result is then `none`.  The
counter `i` itself is compared with the `size_t` value `n` and would wrap at
`2 ^ 32`; it never gets there, because the first block whose end reaches
`2 ^ 32` has an index of at most `2 ^ 32 - 1` and its range is reversed. -/
def dedup (order : List (List Nat) → List (List Nat)) (dataset : List Nat)
    (enc_dim : Nat) : Option (List Nat) :=
  let n := dataset.length / enc_dim
  let myset := (List.range n).foldlM
    (fun myset i =>
      let first := (enc_dim * i) % 2 ^ 32
      let last := ((i + 1) * enc_dim) % 2 ^ 32
      if first ≤ last ∧ last ≤ dataset.length then
        some (usetInsert myset (iterRange dataset first last))
      else none) []
  myset.map fun myset => (order myset).foldl (fun unique point => unique ++ point) []

/-- The distinct codes of a word sequence in the iteration order of the set,
word after word: the value that `dedup` returns when no block bound wraps
(lemma `dedup_eq_some`). -/
def uniqueCodes (order : List (List Nat) → List (List Nat)) (dataset : List Nat)
    (enc_dim : Nat) : List Nat :=
  (order ((codes dataset enc_dim).foldl usetInsert [])).flatten

/-! ## Points -/

/-- A point (`Eigen::VectorXd`), with exact rational coordinates. -/
abbrev Point := List ℚ

/-- Coordinatewise difference, the effect of `p -= center` on `p`. -/
def pointSub (p center : Point) : Point :=
  List.zipWith (fun x c => x - c) p center

namespace SIFT1M

/-- The constant `NUM_QUERIES` of `SIFT1M.cpp`. -/
def NUM_QUERIES : Nat := 1000

/-- The function `recenter` of `SIFT1M.cpp`: the loop starts at `i = 0`. -/
def recenter (dataset : List Point) (center : Point) : List Point :=
  (List.range dataset.length).foldl
    (fun dataset i => dataset.modify (fun p => pointSub p center) i) dataset

/-- The first inner loop of `gen_queries` in `SIFT1M.cpp`:
`(*dataset)[ind * enc_dim + j] = (*dataset)[(n - 1) * enc_dim + j]` for
`j = 0 .. enc_dim - 1`.  An access outside the vector gives `none`. -/
def copyLast (enc_dim ind n : Nat) (dataset : List Nat) : Option (List Nat) :=
  (List.range enc_dim).foldlM
    (fun d j =>
      match d[(n - 1) * enc_dim + j]? with
      | none => none
      | some x =>
        if ind * enc_dim + j < d.length then some (d.set (ind * enc_dim + j) x)
        else none)
    dataset

/-- The second inner loop of `gen_queries`: `enc_dim` times `pop_back`.
Popping an empty vector gives `none`. -/
def popCode (enc_dim : Nat) (dataset : List Nat) : Option (List Nat) :=
  (List.range enc_dim).foldlM
    (fun d _ => if d = [] then none else some d.dropLast) dataset

/-- One iteration of the outer loop of `gen_queries` in `SIFT1M.cpp`, on the
state `(dataset, queries, n)`, for the drawn index `ind`. -/
def genStep (enc_dim ind : Nat) (st : List Nat × List Nat × Nat) :
    Option (List Nat × List Nat × Nat) :=
  let dataset := st.1
  let queries := st.2.1
  let n := st.2.2
  if (ind + 1) * enc_dim ≤ dataset.length then
    let code := iterRange dataset (ind * enc_dim) ((ind + 1) * enc_dim)
    match copyLast enc_dim ind n dataset with
    | none => none
    | some d1 =>
      match popCode enc_dim d1 with
      | none => none
      | some d2 => some (d2, queries ++ code, n - 1)
  else none

/-- The function `gen_queries` of `SIFT1M.cpp`; `draw i` is the value of
`u(gen)` in iteration `i`.  The result is the final `(dataset, queries)`, or
`none` when some access was out of bounds. -/
def gen_queries (draw : Nat → Nat) (dataset : List Nat) (enc_dim : Nat) :
    Option (List Nat × List Nat) :=
  let n := dataset.length / enc_dim
  ((List.range NUM_QUERIES).foldlM
    (fun st i => genStep enc_dim (draw i) st) (dataset, [], n)).map
    fun st => (st.1, st.2.1)

end SIFT1M

namespace SIFT1B

/-- The constant `NUM_QUERIES` of `SIFT1B.cpp`. -/
def NUM_QUERIES : Nat := 10000

/-- The constant `n_each` of `main`: codes per splitter chunk. -/
def n_each : Nat := 10000000

/-- The function `recenter` of `SIFT1B.cpp`: the loop starts at `i = 1`. -/
def recenter (dataset : List Point) (center : Point) : List Point :=
  (List.range' 1 (dataset.length - 1)).foldl
    (fun dataset i => dataset.modify (fun p => pointSub p center) i) dataset

/-- The sampling loop `while (queries_ind.size() < NUM_QUERIES)
queries_ind.insert(u(gen))`; `k` counts the draws made so far.  The loop need
not terminate, so it runs on `fuel`; `none` means the fuel ran out. -/
def sampleLoop (draw : Nat → Nat) : Nat → Nat → List Nat → Option (List Nat)
  | 0, _, _ => none
  | fuel + 1, k, queries_ind =>
    if queries_ind.length < NUM_QUERIES then
      sampleLoop draw fuel (k + 1) (usetInsert queries_ind (draw k))
    else some queries_ind

/-- The index sampling of `main`: the first draw goes to the unused variable
`ind`, the loop starts from the second draw. -/
def sampleQueriesInd (draw : Nat → Nat) (fuel : Nat) : Option (List Nat) :=
  sampleLoop draw fuel 1 []

/-- The library function `fread(ptr, size, nmemb, stream)` on a file of
64-bit words read from word offset `pos`: at most `size * nmemb` bytes are
transferred, the result counts the complete items of `size` bytes, and the
position advances by the bytes transferred.  The components are the return
value, the words transferred and the new position.  Every call of the program
asks for a multiple of 8 bytes, so whole words are transferred. -/
def fread (file : List Nat) (pos size nmemb : Nat) : Nat × List Nat × Nat :=
  let got := min (size * nmemb) (8 * (file.length - pos))
  (got / size, (file.drop pos).take (got / 8), pos + got / 8)

/-- The number of splitter chunks, `size_t(ceil((n_tot - NUM_QUERIES) * 1.0 /
n_each))`: the quotient rounded up.  The difference is taken in `size_t`, so
for `n_tot < NUM_QUERIES` it wraps modulo `2 ^ 64`.  The source divides in
`double`; the rounded-up quotient is the exact one for every `n_tot` below
`2 ^ 53` and for the wrapped differences.  In `main` the splitter is reached
only after the sampling loop ended, hence with `n_tot ≥ NUM_QUERIES`. -/
def nng (n_tot : Nat) : Nat :=
  ((n_tot + 2 ^ 64 - NUM_QUERIES) % 2 ^ 64 + n_each - 1) / n_each

/-- The state of the splitter loop of `main`. -/
structure SplitState where
  /-- Read position of the file `bf`, in words. -/
  pos : Nat
  /-- The variable `cumsum_o`. -/
  cumsum_o : Nat
  /-- The variable `cumsum`. -/
  cumsum : Nat
  /-- The vector `queries`. -/
  queries : List Nat
  /-- Content of the train file `tfp`. -/
  tfp : List Nat
  /-- The variable `tc`. -/
  tc : Nat

/-- The buffer `data` of one splitter iteration after the read: `n_each *
enc_dim` zero words, overwritten by the words read, cut to `tsz` words when
`tsz < data.size()`. -/
def chunkData (enc_dim tsz : Nat) (wordsRead : List Nat) : List Nat :=
  let data := wordsRead ++ List.replicate (n_each * enc_dim - wordsRead.length) 0
  if tsz < n_each * enc_dim then data.take tsz else data

/-- The inner loop of the splitter: code `j` of `data` goes to `queries` when
`j + cumsum_o` is in `queries_ind`, else to `train`.  The state is
`(queries, train)`. -/
def splitCodes (enc_dim tsz cumsum_o : Nat) (queries_ind data : List Nat)
    (queries : List Nat) : List Nat × List Nat :=
  (List.range (tsz / enc_dim)).foldl
    (fun qt j =>
      if usetCount queries_ind (j + cumsum_o) > 0 then
        (qt.1 ++ iterRange data (j * enc_dim) ((j + 1) * enc_dim), qt.2)
      else
        (qt.1, qt.2 ++ iterRange data (j * enc_dim) ((j + 1) * enc_dim)))
    (queries, [])

/-- One iteration of the splitter loop of `main`. -/
def splitChunk (bf : List Nat) (enc_dim : Nat) (queries_ind : List Nat)
    (st : SplitState) : SplitState :=
  let cumsum := st.cumsum + n_each
  let r := fread bf st.pos (n_each * enc_dim) 8
  let tsz := r.1
  let data := chunkData enc_dim tsz r.2.1
  let qt := splitCodes enc_dim tsz st.cumsum_o queries_ind data st.queries
  { pos := r.2.2
    cumsum_o := cumsum
    cumsum := cumsum
    queries := qt.1
    tfp := st.tfp ++ qt.2
    tc := st.tc + qt.2.length }

/-- The splitter state after `i` iterations. -/
def splitAfter (bf : List Nat) (enc_dim : Nat) (queries_ind : List Nat) :
    Nat → SplitState
  | 0 => { pos := 0, cumsum_o := 0, cumsum := 0, queries := [], tfp := [], tc := 0 }
  | i + 1 => splitChunk bf enc_dim queries_ind (splitAfter bf enc_dim queries_ind i)

/-- The splitter loop of `main`: `nng` iterations over the consolidated file. -/
def splitLoop (bf : List Nat) (n_tot enc_dim : Nat) (queries_ind : List Nat) :
    SplitState :=
  splitAfter bf enc_dim queries_ind (nng n_tot)

end SIFT1B

/-! ## The center of a dataset -/

/-- Coordinatewise sum, the effect of `center += p` on `center`. -/
def pointAdd (center p : Point) : Point :=
  List.zipWith (fun c x => c + x) center p

/-- Division of a vector by a count, the effect of `center /= n` and of
`center / n`. -/
def pointDiv (center : Point) (n : Nat) : Point :=
  center.map fun c => c / (n : ℚ)

/-- The function `cal_center` of both programs: the sum of the points,
started from `dataset[0]`, divided by `dataset.size()`.  On an empty dataset
the read of `dataset[0]` is out of bounds: `none`. -/
def cal_center (dataset : List Point) : Option Point :=
  match dataset[0]? with
  | none => none
  | some p0 =>
    some (pointDiv
      ((List.range' 1 (dataset.length - 1)).foldl
        (fun center i => pointAdd center (dataset.getD i [])) p0)
      dataset.length)

/-- The arithmetic mean of points of dimension `dim`: coordinate `j` is the
sum of the `j`-th coordinates of all points divided by the number of points. -/
def arithMean (dataset : List Point) (dim : Nat) : Point :=
  (List.range dim).map fun j =>
    (dataset.map fun p => p.getD j 0).sum / (dataset.length : ℚ)

/-! ## Argument handling of `main` (identical in both programs) -/

/-- What the argument handling at the start of `main` leads to. -/
inductive ArgOutcome where
  /-- The function `usage` ran: the usage line was printed and the process
  exited with the given status. -/
  | usageExit (status : Nat)
  /-- The call `atoi(argv[1])` was made with `argv[1]` a null pointer. -/
  | nullRead
  /-- Processing begins with code width `m` and dataset directory `dirname`. -/
  | run (m : Int) (dirname : String)
  deriving DecidableEq

/-- The argument handling of `main`, for the default directory `datasetDir`:
`atoi(argv[1])` is evaluated first, then `argc > 3` leads to `usage`, and
`argc == 3` takes the directory from `argv[2]`.  The vector `argv` has `argc`
entries; `argv[argc]` is the null pointer. -/
def mainArgs (atoi : String → Int) (datasetDir : String) (argv : List String) :
    ArgOutcome :=
  match argv[1]? with
  | none => ArgOutcome.nullRead
  | some a =>
    let m := atoi a
    if argv.length > 3 then ArgOutcome.usageExit 1
    else if argv.length = 3 then ArgOutcome.run m (argv.getD 2 datasetDir)
    else ArgOutcome.run m datasetDir

/-! ## The encoder -/

/-- Modelled from the spec: the dot product of a point with a hyperplane
normal, used by the class `SimHashCodes` of `create_lsh_codes.h`, which is
not among the sources. -/
def dotProduct (p h : Point) : ℚ :=
  (List.zipWith (fun x y => x * y) p h).sum

/-- Modelled from the spec: the bit that `SimHashCodes` (absent header
`create_lsh_codes.h`) emits for point `p` and hyperplane normal `h`: 1 if the
dot product is non-negative, else 0. -/
def signBit (p h : Point) : Nat :=
  if 0 ≤ dotProduct p h then 1 else 0

/-- Modelled from the spec: the packing of bits into one word by
`SimHashCodes` (absent header `create_lsh_codes.h`), most significant bit
first. -/
def packBits (bits : List Nat) : Nat :=
  bits.foldl (fun acc b => 2 * acc + b) 0

/-- Modelled from the spec: the code of one point as `SimHashCodes` (absent
header `create_lsh_codes.h`) produces it: `enc_dim` words, word `k` packing
the bits of the hyperplanes `64 * k, ..., 64 * k + 63`. -/
def encodePoint (hyperplanes : List Point) (enc_dim : Nat) (p : Point) : List Nat :=
  (List.range enc_dim).map fun k =>
    packBits ((List.range 64).map fun t => signBit p (hyperplanes.getD (64 * k + t) []))

/-- Modelled from the spec: the member `fit` of `SimHashCodes` (absent header
`create_lsh_codes.h`) for code width `m`: the codes of the points of the
batch, concatenated in input order. -/
def fit (hyperplanes : List Point) (m : Nat) (dataset : List Point) : List Nat :=
  dataset.flatMap fun p => encodePoint hyperplanes (m / 64) p

/-- Bit `i` of a code, counted from the most significant bit of the first
word. -/
def codeBit (code : List Nat) (i : Nat) : Nat :=
  (code.getD (i / 64) 0 >>> (63 - i % 64)) % 2

namespace SIFT1M

/-- The constant `DATASET_DIR` of `SIFT1M.cpp`. -/
def DATASET_DIR : String := "datasets/SIFT1M"

/-- The center that `main` of `SIFT1M.cpp` uses: `cal_center` of the base
corpus with the query corpus appended. -/
def mainCenter (base queries_tmp : List Point) : Option Point :=
  cal_center (base ++ queries_tmp)

end SIFT1M

namespace SIFT1B

/-- The constant `DATASET_DIR` of `SIFT1B.cpp`. -/
def DATASET_DIR : String := "datasets/SIFT1B"

/-- The vector `centers` of `main` after the given chunks: `cal_center` of
each chunk, in order. -/
def chunkCenters : List (List Point) → Option (List Point)
  | [] => some []
  | chunk :: rest =>
    match cal_center chunk with
    | none => none
    | some c =>
      match chunkCenters rest with
      | none => none
      | some cs => some (c :: cs)

/-- The count `tn` of `main`: the sizes of all chunks added up. -/
def totalCount (chunks : List (List Point)) : Nat :=
  (chunks.map List.length).sum

/-- The working center of `main`: one `cal_center` per base chunk and one for
the query corpus are collected in `centers`, and `center = cal_center(centers)
/ tn`. -/
def workingCenter (baseChunks : List (List Point)) (queries : List Point) :
    Option Point :=
  match chunkCenters (baseChunks ++ [queries]) with
  | none => none
  | some centers =>
    match cal_center centers with
    | none => none
    | some c => some (pointDiv c (totalCount (baseChunks ++ [queries])))

/-- The first inner loop of `gen_queries` in `SIFT1B.cpp`:
`(*dataset)[ind + j] = (*dataset)[n - (enc_dim - j)]` for
`j = 0 .. enc_dim - 1`, with `n` the number of codes.  When `n < enc_dim - j`
the unsigned difference wraps to an index beyond every vector.  An access
outside the vector gives `none`. -/
def copyLast (enc_dim ind n : Nat) (dataset : List Nat) : Option (List Nat) :=
  (List.range enc_dim).foldlM
    (fun d j =>
      if enc_dim - j ≤ n then
        match d[n - (enc_dim - j)]? with
        | none => none
        | some x =>
          if ind + j < d.length then some (d.set (ind + j) x) else none
      else none)
    dataset

/-- The second inner loop of `gen_queries` in `SIFT1B.cpp`: `enc_dim` times
`pop_back`.  Popping an empty vector gives `none`. -/
def popCode (enc_dim : Nat) (dataset : List Nat) : Option (List Nat) :=
  (List.range enc_dim).foldlM
    (fun d _ => if d = [] then none else some d.dropLast) dataset

/-- One iteration of the outer loop of `gen_queries` in `SIFT1B.cpp`, on the
state `(dataset, queries, n)`, for the drawn index `ind`. -/
def genStep (enc_dim ind : Nat) (st : List Nat × List Nat × Nat) :
    Option (List Nat × List Nat × Nat) :=
  let dataset := st.1
  let queries := st.2.1
  let n := st.2.2
  if (ind + 1) * enc_dim ≤ dataset.length then
    let code := iterRange dataset (ind * enc_dim) ((ind + 1) * enc_dim)
    match copyLast enc_dim ind n dataset with
    | none => none
    | some d1 =>
      match popCode enc_dim d1 with
      | none => none
      | some d2 => some (d2, queries ++ code, n - 1)
  else none

/-- The function `gen_queries` of `SIFT1B.cpp`; `draw i` is the value of
`u(gen)` in iteration `i`.  The result is the final `(dataset, queries)`, or
`none` when some access was out of bounds. -/
def gen_queries (draw : Nat → Nat) (dataset : List Nat) (enc_dim : Nat) :
    Option (List Nat × List Nat) :=
  let n := dataset.length / enc_dim
  ((List.range NUM_QUERIES).foldlM
    (fun st i => genStep enc_dim (draw i) st) (dataset, [], n)).map
    fun st => (st.1, st.2.1)

end SIFT1B

/-! ## Lemmas on vectors and sets -/

theorem iterRange_length (v : List Nat) (lo hi : Nat) (h : hi ≤ v.length) :
    (iterRange v lo hi).length = hi - lo := by
  simp [iterRange]; omega

theorem usetInsert_mem {α : Type} [DecidableEq α] (s : List α) (x y : α) :
    y ∈ usetInsert s x ↔ y ∈ s ∨ y = x := by
  unfold usetInsert
  split
  · constructor
    · exact Or.inl
    · rintro (h | h)
      · exact h
      · subst h; assumption
  · simp

theorem usetInsert_nodup {α : Type} [DecidableEq α] (s : List α) (x : α)
    (h : s.Nodup) : (usetInsert s x).Nodup := by
  unfold usetInsert
  split
  · exact h
  · rw [List.nodup_append]
    refine ⟨h, List.nodup_singleton x, ?_⟩
    intro a ha hb
    simp at hb
    subst hb
    contradiction

theorem foldl_usetInsert_mem {α : Type} [DecidableEq α] (xs s : List α) (y : α) :
    y ∈ xs.foldl usetInsert s ↔ y ∈ s ∨ y ∈ xs := by
  induction xs generalizing s with
  | nil => simp
  | cons x xs ih =>
    simp only [List.foldl_cons, ih, usetInsert_mem, List.mem_cons]
    tauto

theorem foldl_usetInsert_nodup {α : Type} [DecidableEq α] (xs s : List α)
    (h : s.Nodup) : (xs.foldl usetInsert s).Nodup := by
  induction xs generalizing s with
  | nil => simpa using h
  | cons x xs ih => exact ih _ (usetInsert_nodup s x h)

theorem foldl_append_flatten (L : List (List Nat)) (acc : List Nat) :
    L.foldl (fun unique point => unique ++ point) acc = acc ++ L.flatten := by
  induction L generalizing acc with
  | nil => simp
  | cons b L ih => simp [ih, List.append_assoc]

/-! ## Blocks of a packed word sequence -/

theorem flatten_length_of_blocks (L : List (List Nat)) (e : Nat)
    (h : ∀ b ∈ L, b.length = e) : L.flatten.length = L.length * e := by
  induction L with
  | nil => simp
  | cons b L ih =>
    simp only [List.flatten_cons, List.length_append, List.length_cons]
    rw [ih (fun c hc => h c (List.mem_cons_of_mem _ hc)), h b (List.mem_cons_self _ _)]
    ring

theorem drop_flatten_blocks (L : List (List Nat)) (e i : Nat)
    (h : ∀ b ∈ L, b.length = e) : L.flatten.drop (i * e) = (L.drop i).flatten := by
  induction L generalizing i with
  | nil => simp
  | cons b L ih =>
    cases i with
    | zero => simp
    | succ i =>
      have hb : b.length = e := h b (List.mem_cons_self _ _)
      have : (i + 1) * e = b.length + i * e := by rw [hb]; ring
      rw [List.flatten_cons, this, List.drop_append, List.drop_succ_cons]
      exact ih i (fun c hc => h c (List.mem_cons_of_mem _ hc))

theorem iterRange_flatten_blocks (L : List (List Nat)) (e i : Nat)
    (h : ∀ b ∈ L, b.length = e) (hi : i < L.length) :
    iterRange L.flatten (i * e) ((i + 1) * e) = L[i] := by
  unfold iterRange
  rw [drop_flatten_blocks L e i h]
  have hsub : (i + 1) * e - i * e = e := by
    rw [Nat.add_mul, Nat.one_mul]; omega
  rw [hsub, List.drop_eq_getElem_cons hi, List.flatten_cons]
  have hl : (L[i]).length = e := h _ (List.getElem_mem _)
  rw [← hl, List.take_left']
  rfl

theorem codes_flatten_blocks (L : List (List Nat)) (e : Nat) (he : 1 ≤ e)
    (h : ∀ b ∈ L, b.length = e) : codes L.flatten e = L := by
  apply List.ext_getElem
  · simp [codes, flatten_length_of_blocks L e h, Nat.mul_div_cancel _ he]
  · intro i h1 h2
    simp only [codes, List.getElem_map, List.getElem_range]
    exact iterRange_flatten_blocks L e i h h2

theorem codes_block_length (v : List Nat) (e : Nat) (he : 1 ≤ e) :
    ∀ b ∈ codes v e, b.length = e := by
  intro b hb
  simp only [codes, List.mem_map, List.mem_range] at hb
  obtain ⟨i, hi, rfl⟩ := hb
  have : (i + 1) * e ≤ v.length := by
    calc (i + 1) * e ≤ (v.length / e) * e := Nat.mul_le_mul_right _ hi
      _ ≤ v.length := Nat.div_mul_le_self _ _
  simp [iterRange]
  rw [Nat.add_mul, Nat.one_mul] at this ⊢
  omega

theorem codes_length (v : List Nat) (e : Nat) : (codes v e).length = v.length / e := by
  simp [codes]

/-! ## `dedup` -/

theorem foldlM_some_of_forall {α β : Type} (f : β → α → Option β) (g : β → α → β)
    (l : List α) (h : ∀ s, ∀ a ∈ l, f s a = some (g s a)) (init : β) :
    l.foldlM f init = some (l.foldl g init) := by
  induction l generalizing init with
  | nil => rfl
  | cons a l ih =>
    rw [List.foldlM_cons, h init a (List.mem_cons_self _ _)]
    exact ih (fun s b hb => h s b (List.mem_cons_of_mem _ hb)) (g init a)

theorem foldlM_none_of_mem {α β : Type} (f : β → α → Option β) (l : List α) (a : α)
    (ha : a ∈ l) (h : ∀ s, f s a = none) (init : β) : l.foldlM f init = none := by
  induction l generalizing init with
  | nil => cases ha
  | cons b l ih =>
    rw [List.foldlM_cons]
    cases hb : f init b with
    | none => rfl
    | some s =>
      rcases List.mem_cons.mp ha with hab | hmem
      · rw [← hab, h init] at hb
        cases hb
      · exact ih hmem s

/-- Below `2 ^ 32` words no block bound of `dedup` wraps: the result is
defined and consists of the distinct codes in the iteration order of the
set. -/
theorem dedup_eq_some (order : List (List Nat) → List (List Nat)) (dataset : List Nat)
    (e : Nat) (hlen : dataset.length < 2 ^ 32) :
    dedup order dataset e = some (uniqueCodes order dataset e) := by
  have hstep : ∀ (s : List (List Nat)), ∀ i ∈ List.range (dataset.length / e),
      (if (e * i) % 2 ^ 32 ≤ ((i + 1) * e) % 2 ^ 32 ∧
          ((i + 1) * e) % 2 ^ 32 ≤ dataset.length then
        some (usetInsert s
          (iterRange dataset ((e * i) % 2 ^ 32) (((i + 1) * e) % 2 ^ 32)))
      else none) = some (usetInsert s (iterRange dataset (i * e) ((i + 1) * e))) := by
    intro s i hi
    have hi2 := List.mem_range.mp hi
    have h1 : (i + 1) * e ≤ dataset.length :=
      calc (i + 1) * e ≤ (dataset.length / e) * e := Nat.mul_le_mul_right _ hi2
        _ ≤ dataset.length := Nat.div_mul_le_self _ _
    have h2 : e * i ≤ (i + 1) * e := by
      rw [Nat.mul_comm e i]
      exact Nat.mul_le_mul_right _ (Nat.le_succ i)
    have h3 : (i + 1) * e < 2 ^ 32 := Nat.lt_of_le_of_lt h1 hlen
    have h4 : e * i < 2 ^ 32 := Nat.lt_of_le_of_lt h2 h3
    rw [Nat.mod_eq_of_lt h3, Nat.mod_eq_of_lt h4, if_pos ⟨h2, h1⟩, Nat.mul_comm e i]
  unfold dedup uniqueCodes codes
  simp only []
  rw [foldlM_some_of_forall _
    (fun s i => usetInsert s (iterRange dataset (i * e) ((i + 1) * e))) _ hstep]
  simp only [Option.map_some', foldl_append_flatten, List.nil_append, List.foldl_map]

/-- From `2 ^ 32` words on a block bound of `dedup` wraps and the iterator
range of that block is reversed: the result is undefined. -/
theorem dedup_eq_none (order : List (List Nat) → List (List Nat)) (dataset : List Nat)
    (e : Nat) (he : 1 ≤ e) (he2 : e < 2 ^ 32)
    (hlen : 2 ^ 32 ≤ dataset.length / e * e) :
    dedup order dataset e = none := by
  have hdiv : (2 ^ 32 - 1) / e * e ≤ 2 ^ 32 - 1 := Nat.div_mul_le_self _ _
  have hlt : 2 ^ 32 - 1 < ((2 ^ 32 - 1) / e + 1) * e := by
    rw [Nat.mul_comm]
    exact Nat.lt_mul_div_succ _ (by omega)
  have hi : (2 ^ 32 - 1) / e < dataset.length / e := by
    apply Nat.lt_of_mul_lt_mul_right (a := e)
    omega
  have hbad : ∀ s : List (List Nat),
      (if (e * ((2 ^ 32 - 1) / e)) % 2 ^ 32 ≤ (((2 ^ 32 - 1) / e + 1) * e) % 2 ^ 32 ∧
          (((2 ^ 32 - 1) / e + 1) * e) % 2 ^ 32 ≤ dataset.length then
        some (usetInsert s (iterRange dataset ((e * ((2 ^ 32 - 1) / e)) % 2 ^ 32)
          ((((2 ^ 32 - 1) / e + 1) * e) % 2 ^ 32)))
      else none) = none := by
    intro s
    apply if_neg
    rw [Nat.mul_comm e]
    rw [Nat.add_mul, Nat.one_mul] at hlt ⊢
    generalize (2 ^ 32 - 1) / e * e = a at hdiv hlt ⊢
    omega
  unfold dedup
  simp only []
  rw [foldlM_none_of_mem _ _ ((2 ^ 32 - 1) / e) (List.mem_range.mpr hi) hbad]
  rfl

theorem uniqueCodes_blocks (order : List (List Nat) → List (List Nat))
    (horder : IterationOrder order) (dataset : List Nat) (e : Nat) (he : 1 ≤ e) :
    codes (uniqueCodes order dataset e) e = order ((codes dataset e).foldl usetInsert []) := by
  unfold uniqueCodes
  apply codes_flatten_blocks _ e he
  intro b hb
  have hb2 := (horder _).mem_iff.mp hb
  rw [foldl_usetInsert_mem] at hb2
  rcases hb2 with hb2 | hb2
  · simp at hb2
  · exact codes_block_length dataset e he b hb2

theorem uniqueCodes_mem_codes (order : List (List Nat) → List (List Nat))
    (horder : IterationOrder order) (dataset : List Nat) (e : Nat) (he : 1 ≤ e)
    (c : List Nat) : c ∈ codes (uniqueCodes order dataset e) e ↔ c ∈ codes dataset e := by
  rw [uniqueCodes_blocks order horder dataset e he, (horder _).mem_iff, foldl_usetInsert_mem]
  simp

theorem uniqueCodes_nodup_codes (order : List (List Nat) → List (List Nat))
    (horder : IterationOrder order) (dataset : List Nat) (e : Nat) (he : 1 ≤ e) :
    (codes (uniqueCodes order dataset e) e).Nodup := by
  rw [uniqueCodes_blocks order horder dataset e he, (horder _).nodup_iff]
  exact foldl_usetInsert_nodup _ _ List.nodup_nil

theorem uniqueCodes_card_codes (order : List (List Nat) → List (List Nat))
    (horder : IterationOrder order) (dataset : List Nat) (e : Nat) (he : 1 ≤ e) :
    (codes (uniqueCodes order dataset e) e).length = (codes dataset e).toFinset.card := by
  rw [← List.toFinset_card_of_nodup (uniqueCodes_nodup_codes order horder dataset e he)]
  congr 1
  ext c
  simp only [List.mem_toFinset]
  exact uniqueCodes_mem_codes order horder dataset e he c

theorem uniqueCodes_length (order : List (List Nat) → List (List Nat))
    (horder : IterationOrder order) (dataset : List Nat) (e : Nat) (he : 1 ≤ e) :
    (uniqueCodes order dataset e).length = (codes (uniqueCodes order dataset e) e).length * e := by
  rw [uniqueCodes_blocks order horder dataset e he]
  unfold uniqueCodes
  apply flatten_length_of_blocks
  intro b hb
  have hb2 := (horder _).mem_iff.mp hb
  rw [foldl_usetInsert_mem] at hb2
  rcases hb2 with hb2 | hb2
  · simp at hb2
  · exact codes_block_length dataset e he b hb2

theorem uniqueCodes_length_le (order : List (List Nat) → List (List Nat))
    (horder : IterationOrder order) (dataset : List Nat) (e : Nat) (he : 1 ≤ e) :
    (uniqueCodes order dataset e).length ≤ dataset.length := by
  rw [uniqueCodes_length order horder dataset e he,
    uniqueCodes_card_codes order horder dataset e he]
  calc (codes dataset e).toFinset.card * e
      ≤ (codes dataset e).length * e := Nat.mul_le_mul_right _ (List.toFinset_card_le _)
    _ = dataset.length / e * e := by rw [codes_length]
    _ ≤ dataset.length := Nat.div_mul_le_self _ _

/-! ## Claims on `dedup` -/

/-- C1, as stated, fails: on the sequence of the `2 ^ 32 + 8` words
`0, 1, ..., 4294967303` with `enc_dim = 8` (536870913 codes) `dedup` has no
defined result, so there is no output with the codes of the input.  For block
`i = 536870911` the bound `enc_dim * i` is `2 ^ 32 - 8` and the bound
`(i + 1) * enc_dim` wraps to 0: the iterator range is reversed. -/
theorem C1_dedup_long_sequence_counterexample :
    (List.range 4294967304).length % 8 = 0 ∧
    dedup (fun s => s) (List.range 4294967304) 8 = none ∧
    ¬ ∃ out : List Nat, dedup (fun s => s) (List.range 4294967304) 8 = some out ∧
        ∀ c : List Nat, c ∈ codes out 8 ↔ c ∈ codes (List.range 4294967304) 8 := by
  have h : dedup (fun s => s) (List.range 4294967304) 8 = none :=
    dedup_eq_none _ _ 8 (by omega) (by norm_num)
      (by rw [List.length_range]; norm_num)
  refine ⟨by rw [List.length_range], h, ?_⟩
  rintro ⟨out, hout, _⟩
  rw [h] at hout
  cases hout

/-- C1, amended: for every `enc_dim ≥ 1`, every word sequence of fewer than
`2 ^ 32` words (in particular every such sequence whose length is a multiple
of `enc_dim`) and every iteration order of the set, `dedup` returns an output;
the output consists of whole codes and has exactly the codes of the input: a
block of `enc_dim` words occurs in the output if and only if it occurs in the
input. -/
theorem C1_dedup_preserves_code_set (order : List (List Nat) → List (List Nat))
    (horder : IterationOrder order) (dataset : List Nat) (enc_dim : Nat)
    (henc : 1 ≤ enc_dim) (hlen : dataset.length < 2 ^ 32) :
    ∃ out : List Nat, dedup order dataset enc_dim = some out ∧
      out.length % enc_dim = 0 ∧
      ∀ c : List Nat, c ∈ codes out enc_dim ↔ c ∈ codes dataset enc_dim := by
  refine ⟨uniqueCodes order dataset enc_dim, dedup_eq_some order dataset enc_dim hlen,
    ?_, uniqueCodes_mem_codes order horder dataset enc_dim henc⟩
  rw [uniqueCodes_length order horder dataset enc_dim henc]
  exact Nat.mul_mod_left _ _

/-- C1, amended, instance: the sequence `1 2 1 2 3 4` with `enc_dim = 2`, the
set iterated in reverse insertion order; the output is `3 4 1 2`. -/
theorem C1_dedup_preserves_code_set_witness :
    IterationOrder (List.reverse : List (List Nat) → List (List Nat)) ∧
    dedup List.reverse [1, 2, 1, 2, 3, 4] 2 = some [3, 4, 1, 2] ∧
    ∃ out : List Nat, dedup List.reverse [1, 2, 1, 2, 3, 4] 2 = some out ∧
      out.length % 2 = 0 ∧
      ∀ c : List Nat, c ∈ codes out 2 ↔ c ∈ codes [1, 2, 1, 2, 3, 4] 2 :=
  ⟨fun s => List.reverse_perm s, by decide,
   C1_dedup_preserves_code_set List.reverse (fun s => List.reverse_perm s)
     [1, 2, 1, 2, 3, 4] 2 (by decide) (by norm_num)⟩

/-- C2, as stated, fails: on the sequence of `2 ^ 32` words, all of them 0,
with `enc_dim = 1` (`2 ^ 32` codes, one distinct code) `dedup` has no defined
result, so there is no output with one code.  For block `i = 4294967295` the
bound `enc_dim * i` is `2 ^ 32 - 1` and the bound `(i + 1) * enc_dim` wraps to
0: the iterator range is reversed. -/
theorem C2_dedup_long_sequence_counterexample :
    (List.replicate 4294967296 0).length % 1 = 0 ∧
    dedup (fun s => s) (List.replicate 4294967296 0) 1 = none ∧
    ¬ ∃ out : List Nat, dedup (fun s => s) (List.replicate 4294967296 0) 1 = some out ∧
        (codes out 1).Nodup ∧
        (codes out 1).length = (codes (List.replicate 4294967296 0) 1).toFinset.card := by
  have h : dedup (fun s => s) (List.replicate 4294967296 0) 1 = none :=
    dedup_eq_none _ _ 1 (by omega) (by norm_num)
      (by rw [List.length_replicate]; norm_num)
  refine ⟨Nat.mod_one _, h, ?_⟩
  rintro ⟨out, hout, _⟩
  rw [h] at hout
  cases hout

/-- C2, amended: for every `enc_dim ≥ 1`, every word sequence of fewer than
`2 ^ 32` words and every iteration order of the set, `dedup` returns an
output whose codes are pairwise distinct, and their number is the number of
distinct codes of the input. -/
theorem C2_dedup_output_distinct (order : List (List Nat) → List (List Nat))
    (horder : IterationOrder order) (dataset : List Nat) (enc_dim : Nat)
    (henc : 1 ≤ enc_dim) (hlen : dataset.length < 2 ^ 32) :
    ∃ out : List Nat, dedup order dataset enc_dim = some out ∧
      (codes out enc_dim).Nodup ∧
      (codes out enc_dim).length = (codes dataset enc_dim).toFinset.card :=
  ⟨uniqueCodes order dataset enc_dim, dedup_eq_some order dataset enc_dim hlen,
   uniqueCodes_nodup_codes order horder dataset enc_dim henc,
   uniqueCodes_card_codes order horder dataset enc_dim henc⟩

/-- C2, amended, instance: the sequence `1 2 1 2 3 4` with `enc_dim = 2`, the
set iterated in reverse insertion order. -/
theorem C2_dedup_output_distinct_witness :
    IterationOrder (List.reverse : List (List Nat) → List (List Nat)) ∧
    [1, 2, 1, 2, 3, 4].length < 2 ^ 32 ∧
    ∃ out : List Nat, dedup List.reverse [1, 2, 1, 2, 3, 4] 2 = some out ∧
      (codes out 2).Nodup ∧
      (codes out 2).length = (codes [1, 2, 1, 2, 3, 4] 2).toFinset.card :=
  ⟨fun s => List.reverse_perm s, by norm_num,
   C2_dedup_output_distinct List.reverse (fun s => List.reverse_perm s)
     [1, 2, 1, 2, 3, 4] 2 (by decide) (by norm_num)⟩

/-! ## The router -/

namespace SIFT1B

theorem mem_codes_of_lt (h : List Nat) (e j : Nat) (hj : j < h.length / e) :
    iterRange h (j * e) ((j + 1) * e) ∈ codes h e := by
  unfold codes
  exact List.mem_map.mpr ⟨j, List.mem_range.mpr hj, rfl⟩

/-! ## Claims on the router and the sharded deduplication -/

end SIFT1B

/-! ## The splitter -/

namespace SIFT1B

theorem splitCodes_fold (e co : Nat) (Q data : List Nat) (js : List Nat)
    (q t : List Nat) :
    js.foldl
      (fun qt j =>
        if usetCount Q (j + co) > 0 then
          (qt.1 ++ iterRange data (j * e) ((j + 1) * e), qt.2)
        else
          (qt.1, qt.2 ++ iterRange data (j * e) ((j + 1) * e)))
      (q, t)
    = (q ++ ((js.filter fun j => decide (j + co ∈ Q)).map
          fun j => iterRange data (j * e) ((j + 1) * e)).flatten,
       t ++ ((js.filter fun j => decide (j + co ∉ Q)).map
          fun j => iterRange data (j * e) ((j + 1) * e)).flatten) := by
  induction js generalizing q t with
  | nil => simp
  | cons j js ih =>
    rw [List.foldl_cons]
    by_cases hm : j + co ∈ Q
    · have h1 : usetCount Q (j + co) > 0 := by simp [usetCount, hm]
      dsimp only
      rw [if_pos h1, ih]
      simp [List.filter_cons, hm, List.append_assoc]
    · have h1 : ¬ usetCount Q (j + co) > 0 := by simp [usetCount, hm]
      dsimp only
      rw [if_neg h1, ih]
      simp [List.filter_cons, hm, List.append_assoc]

theorem splitCodes_eq (e tsz co : Nat) (Q data q : List Nat) :
    splitCodes e tsz co Q data q
    = (q ++ (((List.range (tsz / e)).filter fun j => decide (j + co ∈ Q)).map
          fun j => iterRange data (j * e) ((j + 1) * e)).flatten,
       (((List.range (tsz / e)).filter fun j => decide (j + co ∉ Q)).map
          fun j => iterRange data (j * e) ((j + 1) * e)).flatten) := by
  unfold splitCodes
  rw [splitCodes_fold]
  simp

theorem fread_items_le (bf : List Nat) (pos e : Nat) (he : 1 ≤ e) :
    (fread bf pos (n_each * e) 8).1 ≤ 8 := by
  unfold fread
  simp only
  have hN : 0 < n_each * e := Nat.mul_pos (by decide) he
  rw [Nat.div_le_iff_le_mul_add_pred hN]
  have := Nat.min_le_left (n_each * e * 8) (8 * (bf.length - pos))
  omega

theorem n_each_mul_ge (e : Nat) (he : 1 ≤ e) : 10000000 ≤ n_each * e := by
  have : n_each * 1 ≤ n_each * e := Nat.mul_le_mul_left _ he
  simpa [n_each] using this

theorem fread_items_le_avail (bf : List Nat) (pos e : Nat) (he : 1 ≤ e) :
    (fread bf pos (n_each * e) 8).1 ≤ bf.length - pos := by
  unfold fread
  simp only
  have hN := n_each_mul_ge e he
  have h1 : min (n_each * e * 8) (8 * (bf.length - pos)) / (n_each * e)
      ≤ min (n_each * e * 8) (8 * (bf.length - pos)) / 8 :=
    Nat.div_le_div_left (by omega) (by omega)
  have h2 := Nat.min_le_right (n_each * e * 8) (8 * (bf.length - pos))
  omega

theorem fread_pos (bf : List Nat) (pos e : Nat) :
    (fread bf pos (n_each * e) 8).2.2 = pos + min (n_each * e) (bf.length - pos) := by
  unfold fread
  simp only
  omega

theorem chunkData_eq (bf : List Nat) (pos e : Nat) (he : 1 ≤ e) :
    chunkData e (fread bf pos (n_each * e) 8).1 (fread bf pos (n_each * e) 8).2.1
      = (bf.drop pos).take (fread bf pos (n_each * e) 8).1 := by
  have h8 := fread_items_le bf pos e he
  have hav := fread_items_le_avail bf pos e he
  have hN := n_each_mul_ge e he
  unfold chunkData
  simp only
  rw [if_pos (by omega)]
  have hw : (fread bf pos (n_each * e) 8).2.1
      = (bf.drop pos).take (min (n_each * e) (bf.length - pos)) := by
    unfold fread
    simp only
    congr 1
    omega
  rw [hw, List.take_append_of_le_length (by simp; omega), List.take_take]
  congr 1
  omega

theorem iterRange_take_drop (bf : List Nat) (pos tsz e j : Nat)
    (hj : (j + 1) * e ≤ tsz) :
    iterRange ((bf.drop pos).take tsz) (j * e) ((j + 1) * e)
      = iterRange bf (pos + j * e) (pos + (j + 1) * e) := by
  unfold iterRange
  have h1 : (j + 1) * e - j * e = e := by rw [Nat.add_mul, Nat.one_mul]; omega
  have h2 : pos + (j + 1) * e - (pos + j * e) = e := by rw [Nat.add_mul, Nat.one_mul]; omega
  rw [h1, h2, List.drop_take, List.take_take, List.drop_drop]
  rw [Nat.add_mul, Nat.one_mul] at hj
  congr 1
  omega

/-- Invariant of the splitter loop: after `i` iterations both counters are
`i * n_each`, and the file position is `i * n_each` codes or the end of file. -/
theorem splitAfter_inv (bf : List Nat) (e : Nat) (Q : List Nat) (i : Nat) :
    (splitAfter bf e Q i).cumsum_o = i * n_each ∧
    (splitAfter bf e Q i).cumsum = i * n_each ∧
    ((splitAfter bf e Q i).pos = i * n_each * e ∨ bf.length ≤ (splitAfter bf e Q i).pos) := by
  induction i with
  | zero => simp [splitAfter]
  | succ i ih =>
    obtain ⟨h1, h2, h3⟩ := ih
    simp only [splitAfter, splitChunk, fread_pos]
    refine ⟨by rw [h2]; ring, by rw [h2]; ring, ?_⟩
    rcases h3 with h3 | h3
    · by_cases hR : n_each * e ≤ bf.length - (splitAfter bf e Q i).pos
      · left
        rw [Nat.min_eq_left hR, h3]
        ring
      · right
        rw [Nat.min_eq_right (by omega)]
        omega
    · right
      omega

/-- The codes processed in the iteration that starts in the state reached
after `i` iterations are the corpus codes at the positions `j + cumsum_o`. -/
theorem splitChunk_blocks (bf : List Nat) (e : Nat) (Q : List Nat) (he : 1 ≤ e) (i j : Nat)
    (hj : j < (fread bf (splitAfter bf e Q i).pos (n_each * e) 8).1 / e) :
    (splitAfter bf e Q i).pos = (splitAfter bf e Q i).cumsum_o * e ∧
    (j + (splitAfter bf e Q i).cumsum_o + 1) * e ≤ bf.length ∧
    iterRange (chunkData e (fread bf (splitAfter bf e Q i).pos (n_each * e) 8).1
        (fread bf (splitAfter bf e Q i).pos (n_each * e) 8).2.1) (j * e) ((j + 1) * e)
      = iterRange bf ((j + (splitAfter bf e Q i).cumsum_o) * e)
          ((j + (splitAfter bf e Q i).cumsum_o + 1) * e) := by
  obtain ⟨h1, _, h3⟩ := splitAfter_inv bf e Q i
  have hav := fread_items_le_avail bf (splitAfter bf e Q i).pos e he
  have hje : (j + 1) * e ≤ (fread bf (splitAfter bf e Q i).pos (n_each * e) 8).1 :=
    calc (j + 1) * e ≤ ((fread bf (splitAfter bf e Q i).pos (n_each * e) 8).1 / e) * e :=
          Nat.mul_le_mul_right _ hj
      _ ≤ _ := Nat.div_mul_le_self _ _
  have hpos1 : 1 ≤ (j + 1) * e := Nat.mul_pos (by omega) he
  have hpos : (splitAfter bf e Q i).pos = (splitAfter bf e Q i).cumsum_o * e := by
    rcases h3 with h3 | h3
    · rw [h3, h1]
    · omega
  have e1 : (j + (splitAfter bf e Q i).cumsum_o) * e
      = (splitAfter bf e Q i).pos + j * e := by rw [hpos]; ring
  have e2 : (j + (splitAfter bf e Q i).cumsum_o + 1) * e
      = (splitAfter bf e Q i).pos + (j + 1) * e := by rw [hpos]; ring
  refine ⟨hpos, by rw [e2]; omega, ?_⟩
  rw [chunkData_eq bf _ e he, iterRange_take_drop bf _ _ e j hje, e1, e2]

theorem splitChunk_out (bf : List Nat) (e : Nat) (Q : List Nat) (he : 1 ≤ e) (i : Nat) :
    (splitAfter bf e Q (i + 1)).queries = (splitAfter bf e Q i).queries ++
      (((List.range ((fread bf (splitAfter bf e Q i).pos (n_each * e) 8).1 / e)).filter
          fun j => decide (j + (splitAfter bf e Q i).cumsum_o ∈ Q)).map
        fun j => iterRange bf ((j + (splitAfter bf e Q i).cumsum_o) * e)
          ((j + (splitAfter bf e Q i).cumsum_o + 1) * e)).flatten ∧
    (splitAfter bf e Q (i + 1)).tfp = (splitAfter bf e Q i).tfp ++
      (((List.range ((fread bf (splitAfter bf e Q i).pos (n_each * e) 8).1 / e)).filter
          fun j => decide (j + (splitAfter bf e Q i).cumsum_o ∉ Q)).map
        fun j => iterRange bf ((j + (splitAfter bf e Q i).cumsum_o) * e)
          ((j + (splitAfter bf e Q i).cumsum_o + 1) * e)).flatten := by
  simp only [splitAfter, splitChunk, splitCodes_eq]
  constructor
  · congr 2
    apply List.map_congr_left
    intro j hj
    exact (splitChunk_blocks bf e Q he i j (List.mem_range.mp (List.mem_filter.mp hj).1)).2.2
  · congr 2
    apply List.map_congr_left
    intro j hj
    exact (splitChunk_blocks bf e Q he i j (List.mem_range.mp (List.mem_filter.mp hj).1)).2.2

/-- The streams after `i` iterations: there is an increasing list of corpus
positions, the positions processed so far, such that `queries` holds the codes
at the positions in `Q` and the train file those at the other positions, both
in increasing order of position. -/
theorem splitAfter_global (bf : List Nat) (e : Nat) (Q : List Nat) (he : 1 ≤ e) (i : Nat) :
    ∃ ps : List Nat,
      ps.Pairwise (fun a b => a < b) ∧
      (∀ p ∈ ps, p < i * n_each ∧ (p + 1) * e ≤ bf.length) ∧
      ps.length * e ≤ 8 * i ∧
      (splitAfter bf e Q i).queries =
        ((ps.filter fun p => decide (p ∈ Q)).map
          fun p => iterRange bf (p * e) ((p + 1) * e)).flatten ∧
      (splitAfter bf e Q i).tfp =
        ((ps.filter fun p => decide (p ∉ Q)).map
          fun p => iterRange bf (p * e) ((p + 1) * e)).flatten := by
  induction i with
  | zero => exact ⟨[], by simp [splitAfter]⟩
  | succ i ih =>
    obtain ⟨ps, hsorted, hbound, hlen, hq, ht⟩ := ih
    obtain ⟨hco, _, _⟩ := splitAfter_inv bf e Q i
    have h8 := fread_items_le bf (splitAfter bf e Q i).pos e he
    have hm : (fread bf (splitAfter bf e Q i).pos (n_each * e) 8).1 / e * e
        ≤ (fread bf (splitAfter bf e Q i).pos (n_each * e) 8).1 := Nat.div_mul_le_self _ _
    have hm8 : (fread bf (splitAfter bf e Q i).pos (n_each * e) 8).1 / e ≤ 8 :=
      le_trans (Nat.div_le_self _ _) h8
    obtain ⟨hq', ht'⟩ := splitChunk_out bf e Q he i
    refine ⟨ps ++ (List.range ((fread bf (splitAfter bf e Q i).pos (n_each * e) 8).1 / e)).map
      (fun j => j + (splitAfter bf e Q i).cumsum_o), ?_, ?_, ?_, ?_, ?_⟩
    · rw [List.pairwise_append]
      refine ⟨hsorted, ?_, ?_⟩
      · rw [List.pairwise_map]
        exact (List.pairwise_lt_range _).imp (fun h => by omega)
      · intro a ha b hb
        obtain ⟨j, _, rfl⟩ := List.mem_map.mp hb
        have := (hbound a ha).1
        omega
    · intro p hp
      rcases List.mem_append.mp hp with hp | hp
      · have := hbound p hp
        exact ⟨by rw [Nat.add_mul]; omega, this.2⟩
      · obtain ⟨j, hj, rfl⟩ := List.mem_map.mp hp
        have hj' := List.mem_range.mp hj
        refine ⟨?_, (splitChunk_blocks bf e Q he i j hj').2.1⟩
        rw [hco, Nat.add_mul]
        have : (8 : Nat) < n_each := by decide
        omega
    · simp only [List.length_append, List.length_map, List.length_range, Nat.add_mul]
      omega
    · rw [hq', hq]
      simp [List.filter_append, List.filter_map, List.map_map, Function.comp_def]
    · rw [ht', ht]
      simp [List.filter_append, List.filter_map, List.map_map, Function.comp_def]

/-- The splitter emits at most eight words per iteration. -/
theorem splitAfter_emitted_le (bf : List Nat) (e : Nat) (Q : List Nat) (he : 1 ≤ e) (i : Nat) :
    (splitAfter bf e Q i).queries.length + (splitAfter bf e Q i).tfp.length ≤ 8 * i := by
  obtain ⟨ps, _, hbound, hlen, hq, ht⟩ := splitAfter_global bf e Q he i
  have hblk : ∀ (l : List Nat), (∀ p ∈ l, p ∈ ps) →
      ((l.map fun p => iterRange bf (p * e) ((p + 1) * e)).flatten).length = l.length * e := by
    intro l hl
    rw [flatten_length_of_blocks _ e, List.length_map]
    intro b hb
    obtain ⟨p, hp, rfl⟩ := List.mem_map.mp hb
    rw [iterRange_length _ _ _ (hbound p (hl p hp)).2, Nat.add_mul]
    omega
  rw [hq, ht, hblk _ (fun p hp => (List.mem_filter.mp hp).1),
    hblk _ (fun p hp => (List.mem_filter.mp hp).1), ← Nat.add_mul]
  have := List.length_eq_length_filter_add (l := ps) (fun p => decide (p ∈ Q))
  simp only [decide_not] at this ⊢
  rw [← this]
  exact hlen

/-- For every corpus of at least `NUM_QUERIES` and at most `2 ^ 31` codes the
query stream is shorter than `NUM_QUERIES` codes when the splitter loop
ends. -/
theorem splitLoop_queries_lt (bf : List Nat) (n_tot e : Nat) (Q : List Nat) (he : 1 ≤ e)
    (hq : NUM_QUERIES ≤ n_tot) (hn : n_tot ≤ 2 ^ 31) :
    (splitLoop bf n_tot e Q).queries.length < NUM_QUERIES * e := by
  have h1 := splitAfter_emitted_le bf e Q he (nng n_tot)
  have h2 : nng n_tot ≤ 215 := by
    unfold nng NUM_QUERIES n_each
    unfold NUM_QUERIES at hq
    rw [Nat.div_le_iff_le_mul_add_pred (by decide)]
    omega
  have h3 : NUM_QUERIES * 1 ≤ NUM_QUERIES * e := Nat.mul_le_mul_left _ he
  unfold splitLoop
  simp only [NUM_QUERIES] at h3 ⊢
  omega

/-- For every corpus of at least `NUM_QUERIES` codes the two streams together
hold fewer words than the corpus when the splitter loop ends. -/
theorem splitLoop_emitted_lt (bf : List Nat) (n_tot e : Nat) (Q : List Nat) (he : 1 ≤ e)
    (hlen : bf.length = n_tot * e) (hn : NUM_QUERIES ≤ n_tot) :
    (splitLoop bf n_tot e Q).queries.length + (splitLoop bf n_tot e Q).tfp.length
      < bf.length := by
  have h1 := splitAfter_emitted_le bf e Q he (nng n_tot)
  have h2 : 8 * nng n_tot < n_tot := by
    unfold nng NUM_QUERIES n_each
    unfold NUM_QUERIES at hn
    omega
  have h3 : n_tot * 1 ≤ n_tot * e := Nat.mul_le_mul_left _ he
  unfold splitLoop
  omega

theorem iterRange_range (n j : Nat) (hj : j < n) :
    iterRange (List.range n) (j * 1) ((j + 1) * 1) = [j] := by
  apply List.ext_getElem
  · simp [iterRange]; omega
  · intro k h1 h2
    simp only [List.length_singleton] at h2
    obtain rfl : k = 0 := by omega
    simp [iterRange]

/-- The streams after the first iteration. -/
theorem splitAfter_one (bf : List Nat) (e : Nat) (Q : List Nat) (he : 1 ≤ e) (tsz : Nat)
    (ht : (fread bf 0 (n_each * e) 8).1 = tsz) :
    (splitAfter bf e Q 1).queries =
      (((List.range (tsz / e)).filter fun j => decide (j ∈ Q)).map
        fun j => iterRange bf (j * e) ((j + 1) * e)).flatten ∧
    (splitAfter bf e Q 1).tfp =
      (((List.range (tsz / e)).filter fun j => decide (j ∉ Q)).map
        fun j => iterRange bf (j * e) ((j + 1) * e)).flatten := by
  obtain ⟨hq, htf⟩ := splitChunk_out bf e Q he 0
  have hst0 : splitAfter bf e Q 0
      = { pos := 0, cumsum_o := 0, cumsum := 0, queries := [], tfp := [], tc := 0 } := rfl
  rw [hst0] at hq htf
  simp only [ht, Nat.add_zero, List.nil_append] at hq htf
  exact ⟨hq, htf⟩


/-- The first splitter iteration on the corpus of the one-word codes
`0, ..., N - 1` with the query indices `0, ..., M - 1`, read with `fread`
returning `tsz ≤ 8`. -/
theorem splitLoop_range (N M n_tot tsz : Nat) (hnng : nng n_tot = 1)
    (ht : (fread (List.range N) 0 (n_each * 1) 8).1 = tsz) (hN : tsz ≤ N) (hM : tsz ≤ M) :
    (splitLoop (List.range N) n_tot 1 (List.range M)).queries = List.range tsz ∧
    (splitLoop (List.range N) n_tot 1 (List.range M)).tfp = [] := by
  obtain ⟨hq, htf⟩ := splitAfter_one (List.range N) 1 (List.range M) (by decide) tsz ht
  have hall : ∀ j ∈ List.range (tsz / 1), decide (j ∈ List.range M) = true := by
    intro j hj
    simp only [Nat.div_one, List.mem_range] at hj
    simp only [List.mem_range, decide_eq_true_eq]
    omega
  unfold splitLoop
  rw [hnng, hq, htf]
  constructor
  · rw [List.filter_eq_self.mpr hall, Nat.div_one]
    have : (List.range tsz).map (fun j => iterRange (List.range N) (j * 1) ((j + 1) * 1))
        = (List.range tsz).map (fun j => [j]) := by
      apply List.map_congr_left
      intro j hj
      exact iterRange_range N j (by have := List.mem_range.mp hj; omega)
    rw [this]
    clear this hq htf hall ht
    induction tsz with
    | zero => rfl
    | succ t ih =>
      rw [List.range_succ, List.map_append, List.flatten_append, ih (by omega) (by omega)]
      rfl
  · have : (List.range (tsz / 1)).filter (fun j => decide (j ∉ List.range M)) = [] := by
      rw [List.filter_eq_nil_iff]
      intro j hj
      have := hall j hj
      simp only [decide_eq_true_eq] at this
      simp [this]
    rw [this]
    rfl

/-- When the first read returns no complete item and the loop runs once,
both streams stay empty. -/
theorem splitLoop_no_item (bf Q : List Nat) (n_tot : Nat) (hnng : nng n_tot = 1)
    (ht : (fread bf 0 (n_each * 1) 8).1 = 0) :
    (splitLoop bf n_tot 1 Q).queries = [] ∧ (splitLoop bf n_tot 1 Q).tfp = [] := by
  obtain ⟨hq, htf⟩ := splitAfter_one bf 1 Q (Nat.le_refl 1) 0 ht
  unfold splitLoop
  rw [hnng, hq, htf]
  exact ⟨rfl, rfl⟩

theorem fread_first_items (bf : List Nat) (n : Nat) (hlen : bf.length = n) :
    (fread bf 0 (n_each * 1) 8).1 = min (n_each * 8) (8 * n) / n_each := by
  unfold fread
  simp only [hlen, Nat.mul_one, Nat.sub_zero]


/-! ## Claims on the splitter -/

/-- C5: the splitter loses codes.  On the deduplicated corpus of the
`n_each = 10000000` one-word codes `0, 1, ..., 9999999` (an exact multiple of
the chunk size) the loop runs once and `fread` returns 8, so only the first
eight codes are processed: with the query indices `0, ..., 9999` the query
stream is `0, ..., 7` and the train stream is empty, and for every set of query
indices the two streams together are not the codes of the corpus. -/
theorem C5_splitter_loses_codes :
    nng 10000000 = 1 ∧
    (fread (List.range 10000000) 0 (n_each * 1) 8).1 = 8 ∧
    (splitLoop (List.range 10000000) 10000000 1 (List.range 10000)).queries
      = [0, 1, 2, 3, 4, 5, 6, 7] ∧
    (splitLoop (List.range 10000000) 10000000 1 (List.range 10000)).tfp = [] ∧
    ∀ queries_ind : List Nat,
      ¬ (codes (splitLoop (List.range 10000000) 10000000 1 queries_ind).tfp 1 ++
          codes (splitLoop (List.range 10000000) 10000000 1 queries_ind).queries 1).Perm
        (codes (List.range 10000000) 1) := by
  have hn : nng 10000000 = 1 := by decide
  have ht : (fread (List.range 10000000) 0 (n_each * 1) 8).1 = 8 := by
    rw [fread_first_items _ 10000000 (List.length_range _)]
    norm_num [n_each]
  obtain ⟨hq, htf⟩ := splitLoop_range 10000000 10000 10000000 8 hn ht (by omega) (by omega)
  refine ⟨hn, ht, hq, htf, ?_⟩
  intro queries_ind hperm
  have hlen := hperm.length_eq
  have hlt := splitLoop_emitted_lt (List.range 10000000) 10000000 1 queries_ind
    (Nat.le_refl 1) (by rw [List.length_range]) (by unfold NUM_QUERIES; omega)
  rw [List.length_append, codes_length, codes_length, codes_length] at hlen
  simp only [Nat.div_one] at hlen
  omega

/-- C6: the assertion after the splitter loop fails.  On the deduplicated
corpus of the 20000 one-word codes `0, ..., 19999` the loop runs once and
`fread` returns 0 (the file is shorter than one item of `n_each * enc_dim`
bytes), so no code is processed: for every set of query indices
`queries.size()` is 0 instead of `NUM_QUERIES * enc_dim = 10000`. -/
theorem C6_query_count_assertion_fails :
    nng 20000 = 1 ∧
    (fread (List.range 20000) 0 (n_each * 1) 8).1 = 0 ∧
    ∀ queries_ind : List Nat,
      (splitLoop (List.range 20000) 20000 1 queries_ind).queries = [] ∧
      (splitLoop (List.range 20000) 20000 1 queries_ind).queries.length
        ≠ NUM_QUERIES * 1 := by
  have hn : nng 20000 = 1 := by decide
  have ht : (fread (List.range 20000) 0 (n_each * 1) 8).1 = 0 := by
    rw [fread_first_items _ 20000 (List.length_range _)]
    norm_num [n_each]
  refine ⟨hn, ht, fun queries_ind => ?_⟩
  have hq := (splitLoop_no_item (List.range 20000) queries_ind 20000 hn ht).1
  refine ⟨hq, ?_⟩
  rw [hq]
  decide

/-- C7: in the iteration that follows `i` completed iterations, for every
code processed (local position `j < tsz / enc_dim`) the file was read from
position `cumsum_o` codes, `j + cumsum_o` is a position of the corpus, and the
code in `data` is the corpus code at that position; the iteration appends to
`queries` the codes whose position is in `queries_ind` and to the train file
the others, in increasing `j`; the next iteration tests indices from
`cumsum_o + n_each` on, above those of this one; and after any number of
iterations there is an increasing list of corpus positions such that `queries`
holds the codes at the positions in `queries_ind` and the train file the codes
at the other positions, each in corpus order. -/
theorem C7_splitter_index_bookkeeping (bf : List Nat) (enc_dim : Nat)
    (queries_ind : List Nat) (henc : 1 ≤ enc_dim) (i : Nat) :
    (∀ j, j < (fread bf (splitAfter bf enc_dim queries_ind i).pos (n_each * enc_dim) 8).1
          / enc_dim →
      (splitAfter bf enc_dim queries_ind i).pos
        = (splitAfter bf enc_dim queries_ind i).cumsum_o * enc_dim ∧
      (j + (splitAfter bf enc_dim queries_ind i).cumsum_o + 1) * enc_dim ≤ bf.length ∧
      iterRange
          (chunkData enc_dim
            (fread bf (splitAfter bf enc_dim queries_ind i).pos (n_each * enc_dim) 8).1
            (fread bf (splitAfter bf enc_dim queries_ind i).pos (n_each * enc_dim) 8).2.1)
          (j * enc_dim) ((j + 1) * enc_dim)
        = iterRange bf ((j + (splitAfter bf enc_dim queries_ind i).cumsum_o) * enc_dim)
            ((j + (splitAfter bf enc_dim queries_ind i).cumsum_o + 1) * enc_dim)) ∧
    (splitChunk bf enc_dim queries_ind (splitAfter bf enc_dim queries_ind i)).queries
      = (splitAfter bf enc_dim queries_ind i).queries ++
        (((List.range
            ((fread bf (splitAfter bf enc_dim queries_ind i).pos (n_each * enc_dim) 8).1
              / enc_dim)).filter
            fun j => decide (j + (splitAfter bf enc_dim queries_ind i).cumsum_o ∈ queries_ind)).map
          fun j =>
            iterRange bf ((j + (splitAfter bf enc_dim queries_ind i).cumsum_o) * enc_dim)
              ((j + (splitAfter bf enc_dim queries_ind i).cumsum_o + 1) * enc_dim)).flatten ∧
    (splitChunk bf enc_dim queries_ind (splitAfter bf enc_dim queries_ind i)).tfp
      = (splitAfter bf enc_dim queries_ind i).tfp ++
        (((List.range
            ((fread bf (splitAfter bf enc_dim queries_ind i).pos (n_each * enc_dim) 8).1
              / enc_dim)).filter
            fun j => decide (j + (splitAfter bf enc_dim queries_ind i).cumsum_o ∉ queries_ind)).map
          fun j =>
            iterRange bf ((j + (splitAfter bf enc_dim queries_ind i).cumsum_o) * enc_dim)
              ((j + (splitAfter bf enc_dim queries_ind i).cumsum_o + 1) * enc_dim)).flatten ∧
    (splitChunk bf enc_dim queries_ind (splitAfter bf enc_dim queries_ind i)).cumsum_o
      = (splitAfter bf enc_dim queries_ind i).cumsum_o + n_each ∧
    (fread bf (splitAfter bf enc_dim queries_ind i).pos (n_each * enc_dim) 8).1 / enc_dim
      ≤ n_each ∧
    ∃ ps : List Nat,
      ps.Pairwise (fun a b => a < b) ∧
      (∀ p ∈ ps, (p + 1) * enc_dim ≤ bf.length) ∧
      (splitAfter bf enc_dim queries_ind i).queries =
        ((ps.filter fun p => decide (p ∈ queries_ind)).map
          fun p => iterRange bf (p * enc_dim) ((p + 1) * enc_dim)).flatten ∧
      (splitAfter bf enc_dim queries_ind i).tfp =
        ((ps.filter fun p => decide (p ∉ queries_ind)).map
          fun p => iterRange bf (p * enc_dim) ((p + 1) * enc_dim)).flatten := by
  obtain ⟨hq, ht⟩ := splitChunk_out bf enc_dim queries_ind henc i
  obtain ⟨hco, hcs, _⟩ := splitAfter_inv bf enc_dim queries_ind i
  refine ⟨fun j hj => splitChunk_blocks bf enc_dim queries_ind henc i j hj, hq, ht, ?_, ?_, ?_⟩
  · simp only [splitChunk]
    rw [hco, hcs]
  · have h8 := fread_items_le bf (splitAfter bf enc_dim queries_ind i).pos enc_dim henc
    have : (8 : Nat) ≤ n_each := by decide
    exact le_trans (Nat.div_le_self _ _) (le_trans h8 this)
  · obtain ⟨ps, h1, h2, _, h4, h5⟩ := splitAfter_global bf enc_dim queries_ind henc i
    exact ⟨ps, h1, fun p hp => (h2 p hp).2, h4, h5⟩

/-- C7, instance: the corpus of the one-word codes `0, ..., 19999999`, the
query indices 0 and 3, the second iteration. -/
theorem C7_splitter_index_bookkeeping_witness :
    (1 ≤ 1) ∧
    ∃ ps : List Nat,
      ps.Pairwise (fun a b => a < b) ∧
      (∀ p ∈ ps, (p + 1) * 1 ≤ (List.range 20000000).length) ∧
      (splitAfter (List.range 20000000) 1 [0, 3] 1).queries =
        ((ps.filter fun p => decide (p ∈ [0, 3])).map
          fun p => iterRange (List.range 20000000) (p * 1) ((p + 1) * 1)).flatten ∧
      (splitAfter (List.range 20000000) 1 [0, 3] 1).tfp =
        ((ps.filter fun p => decide (p ∉ [0, 3])).map
          fun p => iterRange (List.range 20000000) (p * 1) ((p + 1) * 1)).flatten :=
  ⟨Nat.le_refl 1,
   (C7_splitter_index_bookkeeping (List.range 20000000) 1 [0, 3] (Nat.le_refl 1) 1).2.2.2.2.2⟩

end SIFT1B

/-! ## The index sampling -/

namespace SIFT1B

theorem usetInsert_length_le {α : Type} [DecidableEq α] (s : List α) (x : α) :
    (usetInsert s x).length ≤ s.length + 1 := by
  unfold usetInsert
  split <;> simp

/-- Invariant of the sampling loop: the set holds pairwise distinct indices
below `n_tot`, at most `NUM_QUERIES` of them; on exit it holds exactly
`NUM_QUERIES`. -/
theorem sampleLoop_inv (draw : Nat → Nat) (n_tot : Nat) (hdraw : ∀ k, draw k < n_tot)
    (fuel k : Nat) (s res : List Nat) (hnd : s.Nodup) (hlt : ∀ x ∈ s, x < n_tot)
    (hlen : s.length ≤ NUM_QUERIES) (hres : sampleLoop draw fuel k s = some res) :
    res.length = NUM_QUERIES ∧ res.Nodup ∧ ∀ x ∈ res, x < n_tot := by
  induction fuel generalizing k s with
  | zero => simp [sampleLoop] at hres
  | succ fuel ih =>
    unfold sampleLoop at hres
    split at hres
    · rename_i hlt'
      refine ih (k + 1) (usetInsert s (draw k)) (usetInsert_nodup s _ hnd) ?_ ?_ hres
      · intro x hx
        rcases (usetInsert_mem s (draw k) x).mp hx with h | h
        · exact hlt x h
        · rw [h]; exact hdraw k
      · have := usetInsert_length_le s (draw k)
        omega
    · rename_i hge
      injection hres with hres
      subst hres
      exact ⟨by omega, hnd, hlt⟩

/-- The result of the sampling loop does not depend on the fuel. -/
theorem sampleLoop_fuel (draw : Nat → Nat) (fuel fuel' k : Nat) (s res res' : List Nat)
    (h : sampleLoop draw fuel k s = some res) (h' : sampleLoop draw fuel' k s = some res') :
    res' = res := by
  induction fuel generalizing fuel' k s with
  | zero => simp [sampleLoop] at h
  | succ fuel ih =>
    cases fuel' with
    | zero => simp [sampleLoop] at h'
    | succ fuel' =>
      unfold sampleLoop at h h'
      split at h
      · rename_i hlt
        rw [if_pos hlt] at h'
        exact ih fuel' _ _ h h'
      · rename_i hge
        rw [if_neg hge] at h'
        rw [Option.some.injEq] at h h'
        rw [← h, ← h']

/-- On a stream whose draws `1, ..., NUM_QUERIES` are `1, ..., NUM_QUERIES`
the loop ends after `NUM_QUERIES` draws, given enough fuel. -/
theorem sampleLoop_succ_stream (draw : Nat → Nat)
    (hdraw : ∀ k, k ≤ NUM_QUERIES → draw k = k) (d m fuel : Nat)
    (hm : m + d = NUM_QUERIES) (hf : d < fuel) :
    sampleLoop draw fuel (m + 1) (List.range' 1 m) = some (List.range' 1 NUM_QUERIES) := by
  induction d generalizing m fuel with
  | zero =>
    obtain ⟨f, rfl⟩ : ∃ f, fuel = f + 1 := ⟨fuel - 1, by omega⟩
    unfold sampleLoop
    rw [if_neg (by simp; omega)]
    simp only [Nat.add_zero] at hm
    rw [hm]
  | succ d ih =>
    obtain ⟨f, rfl⟩ : ∃ f, fuel = f + 1 := ⟨fuel - 1, by omega⟩
    unfold sampleLoop
    rw [if_pos (by simp; omega), hdraw (m + 1) (by omega)]
    have : usetInsert (List.range' 1 m) (m + 1) = List.range' 1 (m + 1) := by
      unfold usetInsert
      rw [if_neg (by simp [List.mem_range'_1]; omega)]
      rw [List.range'_1_concat, Nat.add_comm 1 m]
    rw [this]
    exact ih (m + 1) f (by omega) (by omega)

/-- The sampling loop terminates once the draws made so far, together with
the indices already in the set, comprise `NUM_QUERIES` distinct values. -/
theorem sampleLoop_terminates (draw : Nat → Nat) (F k : Nat) (s : List Nat)
    (hnd : s.Nodup)
    (hcard : NUM_QUERIES ≤ (s ++ (List.range' k F).map draw).toFinset.card) :
    ∃ res, sampleLoop draw (F + 1) k s = some res := by
  induction F generalizing k s with
  | zero =>
    simp only [List.range'_zero, List.map_nil, List.append_nil] at hcard
    rw [List.toFinset_card_of_nodup hnd] at hcard
    unfold sampleLoop
    rw [if_neg (by omega)]
    exact ⟨s, rfl⟩
  | succ F ih =>
    unfold sampleLoop
    by_cases hlt : s.length < NUM_QUERIES
    · rw [if_pos hlt]
      apply ih (k + 1) (usetInsert s (draw k)) (usetInsert_nodup s _ hnd)
      have hset : (usetInsert s (draw k) ++ (List.range' (k + 1) F).map draw).toFinset
          = (s ++ (List.range' k (F + 1)).map draw).toFinset := by
        ext x
        simp only [List.mem_toFinset, List.mem_append, usetInsert_mem, List.range'_succ,
          List.map_cons, List.mem_cons]
        tauto
      rw [hset]
      exact hcard
    · rw [if_neg hlt]
      exact ⟨s, rfl⟩

/-! ## Claims on the index sampling -/

/-- C8: for every `n_tot` with `NUM_QUERIES ≤ n_tot ≤ 2 ^ 31` and every
stream of draws in `[0, n_tot - 1]`: if the sampling loop, started with the
empty set after `k` earlier draws, terminates with the set `res`, then `res`
holds exactly `NUM_QUERIES` pairwise distinct indices, each below `n_tot` (and
below `2 ^ 31`), and any run on a stream with the same draws, whatever its
fuel, ends with the same set; and the loop does terminate as soon as `F`
draws comprise `NUM_QUERIES` distinct values. -/
theorem C8_sampling_distinct_in_range (n_tot : Nat) (draw draw' : Nat → Nat)
    (fuel fuel' k F : Nat)
    (hlo : NUM_QUERIES ≤ n_tot) (hhi : n_tot ≤ 2 ^ 31)
    (hdraw : ∀ i, draw i ≤ n_tot - 1) (hsame : ∀ i, draw' i = draw i) :
    (∀ res res' : List Nat,
      sampleLoop draw fuel k [] = some res →
      sampleLoop draw' fuel' k [] = some res' →
        res.length = NUM_QUERIES ∧ res.Nodup ∧ (∀ x ∈ res, x < n_tot ∧ x < 2 ^ 31) ∧
        res' = res) ∧
    (NUM_QUERIES ≤ ((List.range' k F).map draw).toFinset.card →
      ∃ res, sampleLoop draw (F + 1) k [] = some res) := by
  have hpos : 0 < n_tot := lt_of_lt_of_le (by decide) hlo
  have hd : ∀ i, draw i < n_tot := fun i => by have := hdraw i; omega
  refine ⟨fun res res' hres hres' => ?_, fun hcard => ?_⟩
  · obtain ⟨h1, h2, h3⟩ := sampleLoop_inv draw n_tot hd fuel k [] res List.nodup_nil
      (by simp) (by simp) hres
    refine ⟨h1, h2, fun x hx => ⟨h3 x hx, by have := h3 x hx; omega⟩, ?_⟩
    have hfun : draw' = draw := funext hsame
    rw [hfun] at hres'
    exact sampleLoop_fuel draw fuel fuel' k [] res res' hres hres'
  · exact sampleLoop_terminates draw F k [] List.nodup_nil (by simpa using hcard)

/-- C8, instance: `n_tot = 20000` and the stream `0, 1, ..., 19999, 0, 1, ...`,
whose first draw is discarded by `main`; the loop ends with the indices
`1, ..., 10000`, with fuel 10001 and with fuel 10002. -/
theorem C8_sampling_distinct_in_range_witness :
    sampleQueriesInd (fun i => i % 20000) 10001 = some (List.range' 1 NUM_QUERIES) ∧
    (List.range' 1 NUM_QUERIES).length = NUM_QUERIES ∧
    (List.range' 1 NUM_QUERIES).Nodup ∧
    (∀ x ∈ List.range' 1 NUM_QUERIES, x < 20000 ∧ x < 2 ^ 31) ∧
    List.range' 1 NUM_QUERIES = List.range' 1 NUM_QUERIES :=
  ⟨sampleLoop_succ_stream (fun i => i % 20000)
      (fun k hk => Nat.mod_eq_of_lt (lt_of_le_of_lt hk (by decide))) 10000 0 10001 rfl
      (by omega),
   (C8_sampling_distinct_in_range 20000 (fun i => i % 20000) (fun i => i % 20000)
      10001 10002 1 10000
      (by unfold NUM_QUERIES; omega) (by omega)
      (fun i => Nat.le_pred_of_lt (Nat.mod_lt i (by omega)))
      (fun _ => rfl)).1 (List.range' 1 NUM_QUERIES) (List.range' 1 NUM_QUERIES)
    (sampleLoop_succ_stream (fun i => i % 20000)
      (fun k hk => Nat.mod_eq_of_lt (lt_of_le_of_lt hk (by decide))) 10000 0 10001 rfl
      (by omega))
    (sampleLoop_succ_stream (fun i => i % 20000)
      (fun k hk => Nat.mod_eq_of_lt (lt_of_le_of_lt hk (by decide))) 10000 0 10002 rfl
      (by omega))⟩

end SIFT1B

/-! ## `gen_queries` of `SIFT1M.cpp` -/

theorem pop_loop (d : List Nat) (m : Nat) (hm : m ≤ d.length) :
    (List.range m).foldlM (fun d (_ : Nat) => if d = [] then none else some d.dropLast) d
      = some (d.take (d.length - m)) := by
  induction m with
  | zero => simp
  | succ m ih =>
    rw [List.range_succ, List.foldlM_append, ih (by omega)]
    simp only [Option.bind_eq_bind, Option.some_bind, List.foldlM_cons, List.foldlM_nil]
    have hne : List.take (d.length - m) d ≠ [] := by
      intro h
      have := congrArg List.length h
      simp at this
      omega
    rw [if_neg hne]
    simp only [Option.bind_eq_bind, Option.some_bind, pure, List.dropLast_eq_take,
      List.length_take, List.take_take]
    congr 2
    omega

namespace SIFT1M

end SIFT1M

/-! ## `recenter` -/

theorem foldl_modify_range_from {α : Type} (f : α → α) (l : List α) (a m : Nat) :
    ∀ k, ((List.range' a m).foldl (fun d i => d.modify f i) l)[k]?
      = if a ≤ k ∧ k < a + m then l[k]?.map f else l[k]? := by
  induction m with
  | zero =>
    intro k
    rw [if_neg (by omega)]
    rfl
  | succ m ih =>
    intro k
    rw [List.range'_concat, List.foldl_append]
    simp only [List.foldl_cons, List.foldl_nil, Nat.one_mul]
    rw [List.getElem?_modify, ih]
    by_cases hk : a + m = k
    · subst hk
      rw [if_neg (by omega), if_pos (by omega)]
      simp
    · by_cases h1 : a ≤ k ∧ k < a + m
      · rw [if_pos h1, if_pos (by omega)]
        simp [hk]
      · rw [if_neg h1, if_neg (by omega)]
        simp [hk]

namespace SIFT1B

theorem recenter_cons (p : Point) (rest : List Point) (center : Point) :
    recenter (p :: rest) center = p :: rest.map (fun q => pointSub q center) := by
  apply List.ext_getElem?
  intro k
  unfold recenter
  rw [foldl_modify_range_from]
  cases k with
  | zero => simp
  | succ k =>
    simp only [List.length_cons, Nat.add_sub_cancel, List.getElem?_cons_succ, List.getElem?_map]
    by_cases hk : k < rest.length
    · rw [if_pos (by omega)]
    · rw [if_neg (by omega), List.getElem?_eq_none (by omega)]
      rfl

end SIFT1B

namespace SIFT1M

theorem recenter_eq_map (dataset : List Point) (center : Point) :
    recenter dataset center = dataset.map (fun q => pointSub q center) := by
  apply List.ext_getElem?
  intro k
  unfold recenter
  rw [List.range_eq_range', foldl_modify_range_from, List.getElem?_map]
  by_cases hk : k < dataset.length
  · rw [if_pos (by omega)]
  · rw [if_neg (by omega), List.getElem?_eq_none (by omega)]
    rfl

end SIFT1M

namespace SIFT1B

/-! ## Claim on `recenter` of `SIFT1B.cpp` -/

/-- C10: `recenter` of `SIFT1B.cpp` leaves point 0 unchanged.  On the dataset
of the two points `(1, 2)` and `(3, 4)` with center `(1, 1)` it returns `(1, 2)`
and `(2, 3)`, while `recenter` of `SIFT1M.cpp` returns `(0, 1)` and `(2, 3)`; for
every non-empty dataset, point 0 is returned as it was and the points from
index 1 on have the center subtracted. -/
theorem C10_recenter_skips_first_point :
    recenter [[1, 2], [3, 4]] [1, 1] = [[1, 2], [2, 3]] ∧
    SIFT1M.recenter [[1, 2], [3, 4]] [1, 1] = [[0, 1], [2, 3]] ∧
    ∀ (p : Point) (rest : List Point) (center : Point),
      recenter (p :: rest) center = p :: rest.map (fun q => pointSub q center) := by
  refine ⟨?_, ?_, recenter_cons⟩
  · rw [recenter_cons]
    norm_num [pointSub]
  · rw [SIFT1M.recenter_eq_map]
    norm_num [pointSub]

end SIFT1B

/-! ## The center of a dataset -/

theorem foldl_getD_range {α β : Type} (f : β → α → β) (d : α) (l : List α) (b : β) (s : Nat)
    (pre : List α) (hs : pre.length = s) :
    (List.range' s l.length).foldl (fun acc i => f acc ((pre ++ l).getD i d)) b
      = l.foldl f b := by
  induction l generalizing b s pre with
  | nil => rfl
  | cons a l ih =>
    simp only [List.length_cons, List.range'_succ, List.foldl_cons]
    have h1 : (pre ++ a :: l).getD s d = a := by
      subst hs
      rw [List.getD_eq_getElem?_getD, List.getElem?_append_right (Nat.le_refl _)]
      simp
    rw [h1]
    have := ih (f b a) (s + 1) (pre ++ [a]) (by simp [hs])
    simpa using this

theorem pointAdd_length (c p : Point) (dim : Nat) (hc : c.length = dim) (hp : p.length = dim) :
    (pointAdd c p).length = dim := by
  simp [pointAdd, hc, hp]

theorem foldl_pointAdd (rest : List Point) (p : Point) (dim : Nat)
    (hp : p.length = dim) (hrest : ∀ q ∈ rest, q.length = dim) :
    rest.foldl pointAdd p
      = (List.range dim).map fun j => ((p :: rest).map fun q => q.getD j 0).sum := by
  induction rest generalizing p with
  | nil =>
    apply List.ext_getElem
    · simp [hp]
    · intro j h1 h2
      have hj : j < p.length := h1
      simp [List.getElem?_eq_getElem hj]
  | cons q rest ih =>
    have hq : q.length = dim := hrest q (List.mem_cons_self _ _)
    rw [List.foldl_cons, ih (pointAdd p q) (pointAdd_length p q dim hp hq)
      (fun r hr => hrest r (List.mem_cons_of_mem _ hr))]
    apply List.map_congr_left
    intro j hj
    have hj' : j < dim := List.mem_range.mp hj
    have h1 : (pointAdd p q).getD j 0 = p.getD j 0 + q.getD j 0 := by
      have hjp : j < p.length := by omega
      have hjq : j < q.length := by omega
      simp [pointAdd, List.getD_eq_getElem?_getD, List.getElem?_eq_getElem, hjp, hjq]
    simp only [List.map_cons, List.sum_cons, h1]
    ring

theorem cal_center_cons (p : Point) (rest : List Point) (dim : Nat)
    (hdim : ∀ q ∈ p :: rest, q.length = dim) :
    cal_center (p :: rest) = some (arithMean (p :: rest) dim) := by
  have hp : p.length = dim := hdim p (List.mem_cons_self _ _)
  have hrest : ∀ q ∈ rest, q.length = dim := fun q hq => hdim q (List.mem_cons_of_mem _ hq)
  have hfold := foldl_getD_range pointAdd ([] : Point) rest p 1 [p] rfl
  unfold cal_center
  simp only [List.getElem?_cons_zero, List.length_cons, Nat.add_sub_cancel]
  have hcons : p :: rest = [p] ++ rest := rfl
  rw [hcons, hfold, foldl_pointAdd rest p dim hp hrest]
  simp [pointDiv, arithMean]

/-! ## Claim on the center of `SIFT1M.cpp` -/

namespace SIFT1M

/-- C11: in `SIFT1M.cpp`, for every non-empty base corpus and every query
corpus, all points of dimension `dim`, the center computed by `main`,
`cal_center` of the base corpus with the query corpus appended, is the
arithmetic mean of all points of both corpora: coordinate `j` is the sum of
the `j`-th coordinates divided by the total number of points. -/
theorem C11_center_is_mean_of_all_points (base queries_tmp : List Point) (dim : Nat)
    (hbase : base ≠ []) (hdim : ∀ p ∈ base ++ queries_tmp, p.length = dim) :
    mainCenter base queries_tmp = some (arithMean (base ++ queries_tmp) dim) ∧
    (arithMean (base ++ queries_tmp) dim).length = dim ∧
    ∀ j, j < dim →
      (arithMean (base ++ queries_tmp) dim).getD j 0
        = ((base ++ queries_tmp).map fun p => p.getD j 0).sum
          / ((base.length + queries_tmp.length : Nat) : ℚ) := by
  refine ⟨?_, by simp [arithMean], ?_⟩
  · unfold mainCenter
    cases base with
    | nil => exact absurd rfl hbase
    | cons p rest => exact cal_center_cons p (rest ++ queries_tmp) dim hdim
  · intro j hj
    simp [arithMean, List.getD_eq_getElem?_getD, hj]

/-- C11, instance: the base corpus `(1, 2), (3, 6)` and the query corpus
`(5, 7)`. -/
theorem C11_center_is_mean_of_all_points_witness :
    mainCenter [[1, 2], [3, 6]] [[5, 7]] = some (arithMean ([[1, 2], [3, 6]] ++ [[5, 7]]) 2) ∧
    arithMean ([[1, 2], [3, 6]] ++ [[5, 7]]) 2 = [3, 5] :=
  ⟨(C11_center_is_mean_of_all_points [[1, 2], [3, 6]] [[5, 7]] 2 (by simp)
      (by simp)).1,
   by norm_num [arithMean, List.range_succ]⟩

end SIFT1M

/-! ## The working center of `SIFT1B.cpp` -/

namespace SIFT1B

theorem chunkCenters_eq (chunks : List (List Point)) (dim : Nat)
    (hne : ∀ c ∈ chunks, c ≠ []) (hdim : ∀ c ∈ chunks, ∀ p ∈ c, p.length = dim) :
    chunkCenters chunks = some (chunks.map fun c => arithMean c dim) := by
  induction chunks with
  | nil => rfl
  | cons c rest ih =>
    have hc : cal_center c = some (arithMean c dim) := by
      cases c with
      | nil => exact absurd rfl (hne [] (List.mem_cons_self _ _))
      | cons p ps => exact cal_center_cons p ps dim (hdim _ (List.mem_cons_self _ _))
    unfold chunkCenters
    rw [hc, ih (fun c' h => hne c' (List.mem_cons_of_mem _ h))
      (fun c' h => hdim c' (List.mem_cons_of_mem _ h))]
    rfl

/-- The sum of the per-chunk means of chunks of one size `s` is the sum of
all points divided by `s`. -/
theorem sum_chunk_means (chunks : List (List Point)) (s j : Nat)
    (hsize : ∀ c ∈ chunks, c.length = s) :
    (chunks.map fun c => (c.map fun p => p.getD j 0).sum / (s : ℚ)).sum
      = (chunks.flatten.map fun p => p.getD j 0).sum / (s : ℚ) := by
  induction chunks with
  | nil => simp
  | cons c rest ih =>
    simp only [List.map_cons, List.sum_cons, List.flatten_cons, List.map_append, List.sum_append]
    rw [ih (fun c' h => hsize c' (List.mem_cons_of_mem _ h))]
    ring

theorem totalCount_eq (chunks : List (List Point)) (s : Nat)
    (hsize : ∀ c ∈ chunks, c.length = s) :
    totalCount chunks = chunks.length * s ∧ chunks.flatten.length = chunks.length * s := by
  induction chunks with
  | nil => simp [totalCount]
  | cons c rest ih =>
    obtain ⟨h1, h2⟩ := ih (fun c' h => hsize c' (List.mem_cons_of_mem _ h))
    have hc := hsize c (List.mem_cons_self _ _)
    unfold totalCount at h1 ⊢
    simp only [List.map_cons, List.sum_cons, List.flatten_cons, List.length_append,
      List.length_cons, h1, h2, hc]
    constructor <;> ring

/-- What `main` of `SIFT1B.cpp` computes when all chunks are non-empty and of
one size: the arithmetic mean of all points, divided once more by `tn`. -/
theorem workingCenter_equal_chunks (baseChunks : List (List Point)) (queries : List Point)
    (s dim : Nat) (hs : 0 < s)
    (hsize : ∀ c ∈ baseChunks ++ [queries], c.length = s)
    (hdim : ∀ c ∈ baseChunks ++ [queries], ∀ p ∈ c, p.length = dim) :
    workingCenter baseChunks queries
      = some (pointDiv (arithMean (baseChunks ++ [queries]).flatten dim)
          (totalCount (baseChunks ++ [queries]))) := by
  have hne : ∀ c ∈ baseChunks ++ [queries], c ≠ [] := by
    intro c hc h
    have := hsize c hc
    rw [h] at this
    simp at this
    omega
  have hcc := chunkCenters_eq (baseChunks ++ [queries]) dim hne hdim
  obtain ⟨htc, hfl⟩ := totalCount_eq (baseChunks ++ [queries]) s hsize
  unfold workingCenter
  rw [hcc]
  simp only
  have hcen : cal_center ((baseChunks ++ [queries]).map fun c => arithMean c dim)
      = some (arithMean ((baseChunks ++ [queries]).map fun c => arithMean c dim) dim) := by
    cases hl : (baseChunks ++ [queries]).map (fun c => arithMean c dim) with
    | nil => simp at hl
    | cons p ps =>
      apply cal_center_cons
      intro q hq
      rw [← hl] at hq
      obtain ⟨c, _, rfl⟩ := List.mem_map.mp hq
      simp [arithMean]
  rw [hcen]
  simp only
  congr 2
  unfold arithMean
  apply List.map_congr_left
  intro j hj
  have hj' : j < dim := List.mem_range.mp hj
  have hget : ∀ c : List Point,
      (List.map (fun j => (List.map (fun p => p.getD j 0) c).sum / (c.length : ℚ))
        (List.range dim)).getD j 0 = (List.map (fun p => p.getD j 0) c).sum / (c.length : ℚ) := by
    intro c
    simp [List.getD_eq_getElem?_getD, hj']
  simp only [List.map_map, Function.comp_def, hget, List.length_map]
  have hcongr : (List.map (fun c : List Point =>
        (List.map (fun p => p.getD j 0) c).sum / (c.length : ℚ)) (baseChunks ++ [queries]))
      = (List.map (fun c : List Point =>
        (List.map (fun p => p.getD j 0) c).sum / (s : ℚ)) (baseChunks ++ [queries])) := by
    apply List.map_congr_left
    intro c hc
    rw [hsize c hc]
  rw [hcongr, sum_chunk_means _ s j hsize, hfl]
  have hs' : (s : ℚ) ≠ 0 := by exact_mod_cast (Nat.pos_iff_ne_zero.mp hs)
  have hk : (((baseChunks ++ [queries]).length : Nat) : ℚ) ≠ 0 := by
    have : 0 < (baseChunks ++ [queries]).length := by simp
    exact_mod_cast (Nat.pos_iff_ne_zero.mp this)
  push_cast
  field_simp
  left
  ring

/-! ## Claim on the working center of `SIFT1B.cpp` -/

/-- C12: the working center of `SIFT1B.cpp` is not the mean, also for equal
chunk sizes.  On one base chunk holding the point `(2)` and the query corpus
holding the point `(4)` (two non-empty chunks of size 1, `tn = 2`), `centers`
is `(2), (4)`, `cal_center(centers)` is `(3)`, the arithmetic mean of the two
points, and `center = cal_center(centers) / tn` is `(3/2)`. -/
theorem C12_working_center_divided_twice :
    chunkCenters ([[[2]]] ++ [[[4]]]) = some [[2], [4]] ∧
    cal_center [[2], [4]] = some [3] ∧
    totalCount ([[[2]]] ++ [[[4]]]) = 2 ∧
    arithMean [[2], [4]] 1 = [3] ∧
    workingCenter [[[2]]] [[4]] = some [3 / 2] ∧
    workingCenter [[[2]]] [[4]] ≠ some (arithMean [[2], [4]] 1) := by
  have hm : arithMean [[2], [4]] 1 = [3] := by
    norm_num [arithMean, List.range_succ]
  have hc : cal_center [[2], [4]] = some [3] := by
    rw [cal_center_cons [2] [[4]] 1 (by simp)]
    norm_num [arithMean, List.range_succ]
  have hcc : chunkCenters ([[[2]]] ++ [[[4]]]) = some [[2], [4]] := by
    rw [chunkCenters_eq ([[[2]]] ++ [[[4]]]) 1 (by simp) (by simp)]
    norm_num [arithMean, List.range_succ]
  have ht : totalCount ([[[2]]] ++ [[[4]]]) = 2 := by
    simp [totalCount]
  have hw : workingCenter [[[2]]] [[4]] = some [3 / 2] := by
    unfold workingCenter
    rw [hcc]
    simp only [hc, ht]
    norm_num [pointDiv]
  refine ⟨hcc, hc, ht, hm, hw, ?_⟩
  rw [hw, hm]
  norm_num

end SIFT1B

/-! ## Claim on the argument handling -/

/-- C13: with no positional argument `main` does not reach `usage`.  For
`argc = 1` both programs evaluate `atoi(argv[1])` on the null pointer
`argv[argc]` before any test of `argc`, and the only test that leads to
`usage` is `argc > 3`.  For `argc > 3` the usage line is printed and the exit
status is 1, for `argc = 2` and `argc = 3` processing begins. -/
theorem C13_missing_argument_not_rejected :
    (∀ atoi : String → Int,
      mainArgs atoi SIFT1B.DATASET_DIR ["SIFT1B"] = ArgOutcome.nullRead) ∧
    (∀ atoi : String → Int,
      mainArgs atoi SIFT1M.DATASET_DIR ["SIFT1M"] = ArgOutcome.nullRead) ∧
    (∀ atoi : String → Int,
      mainArgs atoi SIFT1B.DATASET_DIR ["SIFT1B"] ≠ ArgOutcome.usageExit 1) ∧
    (∀ (atoi : String → Int) (dir a0 a1 a2 a3 : String) (rest : List String),
      mainArgs atoi dir (a0 :: a1 :: a2 :: a3 :: rest) = ArgOutcome.usageExit 1) ∧
    (∀ (atoi : String → Int) (dir a0 a1 : String),
      mainArgs atoi dir [a0, a1] = ArgOutcome.run (atoi a1) dir) ∧
    (∀ (atoi : String → Int) (dir a0 a1 a2 : String),
      mainArgs atoi dir [a0, a1, a2] = ArgOutcome.run (atoi a1) a2) := by
  refine ⟨fun _ => rfl, fun _ => rfl, fun _ h => ?_, ?_, fun _ _ _ _ => rfl,
    fun _ _ _ _ _ => rfl⟩
  · have h' : ArgOutcome.nullRead = ArgOutcome.usageExit 1 := h
    cases h'
  · intro atoi dir a0 a1 a2 a3 rest
    simp [mainArgs]

/-! ## The partition under different iteration orders -/

namespace SIFT1B

end SIFT1B

/-! ## The encoder -/

theorem packBits_concat (bs : List Nat) (b : Nat) :
    packBits (bs ++ [b]) = 2 * packBits bs + b := by
  simp [packBits, List.foldl_append]

theorem packBits_lt (bs : List Nat) (hb : ∀ b ∈ bs, b ≤ 1) : packBits bs < 2 ^ bs.length := by
  induction bs using List.reverseRecOn with
  | nil => simp [packBits]
  | append_singleton bs b ih =>
    have h1 := ih (fun x hx => hb x (List.mem_append_left _ hx))
    have h2 : b ≤ 1 := hb b (by simp)
    rw [packBits_concat, List.length_append, List.length_singleton, Nat.pow_succ]
    omega

/-- Reading back bit `t` of a packed word, counted from the most significant
bit. -/
theorem packBits_bit (bs : List Nat) (hb : ∀ b ∈ bs, b ≤ 1) (t : Nat) (ht : t < bs.length) :
    (packBits bs >>> (bs.length - 1 - t)) % 2 = bs.getD t 0 := by
  induction bs using List.reverseRecOn with
  | nil => simp at ht
  | append_singleton bs b ih =>
    have h2 : b ≤ 1 := hb b (by simp)
    rw [packBits_concat]
    simp only [List.length_append, List.length_singleton, Nat.add_sub_cancel] at ht ⊢
    by_cases htl : t < bs.length
    · have h1 := ih (fun x hx => hb x (List.mem_append_left _ hx)) htl
      have hexp : bs.length - t = (bs.length - 1 - t) + 1 := by omega
      rw [hexp, Nat.shiftRight_succ_inside]
      have hdiv : (2 * packBits bs + b) / 2 = packBits bs := by omega
      rw [hdiv, h1]
      simp [List.getD_eq_getElem?_getD, List.getElem?_append_left htl]
    · have : t = bs.length := by omega
      subst this
      simp only [Nat.sub_self, Nat.shiftRight_zero]
      rw [List.getD_eq_getElem?_getD, List.getElem?_append_right (Nat.le_refl _)]
      simp
      omega

theorem signBit_le_one (p h : Point) : signBit p h ≤ 1 := by
  unfold signBit
  split <;> omega

theorem signBit_eq_one (p h : Point) : signBit p h = 1 ↔ 0 ≤ dotProduct p h := by
  unfold signBit
  split <;> simp [*]

theorem encodePoint_length (hp : List Point) (e : Nat) (p : Point) :
    (encodePoint hp e p).length = e := by
  simp [encodePoint]

theorem encodePoint_word_lt (hp : List Point) (e : Nat) (p : Point) :
    ∀ w ∈ encodePoint hp e p, w < 2 ^ 64 := by
  intro w hw
  obtain ⟨k, _, rfl⟩ := List.mem_map.mp hw
  have := packBits_lt ((List.range 64).map fun t => signBit p (hp.getD (64 * k + t) []))
    (by
      intro b hb
      obtain ⟨t, _, rfl⟩ := List.mem_map.mp hb
      exact signBit_le_one _ _)
  simpa using this

/-- Bit `i` of the code of a point is the sign bit for hyperplane `i`. -/
theorem encodePoint_bit (hp : List Point) (e : Nat) (p : Point) (i : Nat) (hi : i < 64 * e) :
    codeBit (encodePoint hp e p) i = signBit p (hp.getD i []) := by
  have hk : i / 64 < e := by omega
  have ht : i % 64 < 64 := Nat.mod_lt _ (by omega)
  unfold codeBit encodePoint
  have hget : (List.map (fun k => packBits ((List.range 64).map
        fun t => signBit p (hp.getD (64 * k + t) []))) (List.range e)).getD (i / 64) 0
      = packBits ((List.range 64).map fun t => signBit p (hp.getD (64 * (i / 64) + t) [])) := by
    simp [List.getD_eq_getElem?_getD, hk]
  rw [hget]
  have hbits := packBits_bit ((List.range 64).map fun t =>
      signBit p (hp.getD (64 * (i / 64) + t) []))
    (by
      intro b hb
      obtain ⟨t, _, rfl⟩ := List.mem_map.mp hb
      exact signBit_le_one _ _)
    (i % 64) (by simpa using ht)
  simp only [List.length_map, List.length_range] at hbits
  have h63 : 64 - 1 - i % 64 = 63 - i % 64 := by omega
  rw [h63] at hbits
  rw [hbits]
  have hidx : 64 * (i / 64) + i % 64 = i := Nat.div_add_mod i 64
  simp [List.getD_eq_getElem?_getD, ht, hidx]

theorem fit_eq_flatten (hp : List Point) (m : Nat) (dataset : List Point) :
    fit hp m dataset = (dataset.map fun p => encodePoint hp (m / 64) p).flatten := by
  unfold fit
  induction dataset with
  | nil => rfl
  | cons p ps ih => simp [List.flatMap_cons, ih]

/-! ## Claim on the encoder -/

/-- C15: for every batch of points and every code width `m` that is a
positive multiple of 64, with `enc_dim = m / 64`: `fit` returns exactly
`n * enc_dim` words below `2 ^ 64`; the index `j * enc_dim` is in bounds for
every `j < n`; the words `[j * enc_dim, (j + 1) * enc_dim)` are the code of
point `j`; and bit `i < m` of that code is 1 exactly when the dot product of
the point with hyperplane `i` is non-negative. -/
theorem C15_encoder_output (hyperplanes : List Point) (m : Nat) (dataset : List Point)
    (hm : 0 < m) (h64 : m % 64 = 0) :
    (fit hyperplanes m dataset).length = dataset.length * (m / 64) ∧
    (∀ w ∈ fit hyperplanes m dataset, w < 2 ^ 64) ∧
    (∀ j, j < dataset.length → j * (m / 64) < (fit hyperplanes m dataset).length) ∧
    (∀ j, j < dataset.length →
      iterRange (fit hyperplanes m dataset) (j * (m / 64)) ((j + 1) * (m / 64))
        = encodePoint hyperplanes (m / 64) (dataset.getD j [])) ∧
    (∀ j i, j < dataset.length → i < m →
      (codeBit (iterRange (fit hyperplanes m dataset) (j * (m / 64)) ((j + 1) * (m / 64))) i = 1
        ↔ 0 ≤ dotProduct (dataset.getD j []) (hyperplanes.getD i []))) := by
  have he : 1 ≤ m / 64 := by omega
  have hblocks : ∀ b ∈ dataset.map (fun p => encodePoint hyperplanes (m / 64) p),
      b.length = m / 64 := by
    intro b hb
    obtain ⟨p, _, rfl⟩ := List.mem_map.mp hb
    exact encodePoint_length _ _ _
  have hlen : (fit hyperplanes m dataset).length = dataset.length * (m / 64) := by
    rw [fit_eq_flatten, flatten_length_of_blocks _ (m / 64) hblocks, List.length_map]
  have hcode : ∀ j, j < dataset.length →
      iterRange (fit hyperplanes m dataset) (j * (m / 64)) ((j + 1) * (m / 64))
        = encodePoint hyperplanes (m / 64) (dataset.getD j []) := by
    intro j hj
    rw [fit_eq_flatten, iterRange_flatten_blocks _ (m / 64) j hblocks (by simpa using hj)]
    simp [List.getD_eq_getElem?_getD, List.getElem?_eq_getElem hj]
  refine ⟨hlen, ?_, ?_, hcode, ?_⟩
  · intro w hw
    rw [fit_eq_flatten] at hw
    obtain ⟨b, hb, hwb⟩ := List.mem_flatten.mp hw
    obtain ⟨p, _, rfl⟩ := List.mem_map.mp hb
    exact encodePoint_word_lt _ _ _ w hwb
  · intro j hj
    rw [hlen]
    exact Nat.mul_lt_mul_of_lt_of_le hj (Nat.le_refl _) (by omega)
  · intro j i hj hi
    rw [hcode j hj, encodePoint_bit _ _ _ i (by omega), signBit_eq_one]

/-- C15, instance: two points of dimension 2, code width 64 with the
hyperplane normal `(1, 0)` repeated 64 times. -/
theorem C15_encoder_output_witness :
    (fit (List.replicate 64 [1, 0]) 64 [[1, 5], [-1, 5]]).length = 2 * (64 / 64) ∧
    (∀ j, j < 2 → j * (64 / 64) < (fit (List.replicate 64 [1, 0]) 64 [[1, 5], [-1, 5]]).length) :=
  ⟨(C15_encoder_output (List.replicate 64 [1, 0]) 64 [[1, 5], [-1, 5]] (by omega)
      (by omega)).1,
   (C15_encoder_output (List.replicate 64 [1, 0]) 64 [[1, 5], [-1, 5]] (by omega)
      (by omega)).2.2.1⟩

/-! ## The chunk read of the splitter -/

namespace SIFT1B

theorem fread_items_eq (bf : List Nat) (pos e n : Nat) (hlen : bf.length = n) :
    (fread bf pos (n_each * e) 8).1 = min (n_each * e * 8) (8 * (n - pos)) / (n_each * e) := by
  unfold fread
  simp only [hlen]

/-! ## Claim on the chunk read of the splitter -/

/-- C16: the chunk read reports items of `n_each * enc_dim` bytes, not words.
On a consolidated file of the 20000000 two-word codes `(0, 1), (2, 3), ...`,
read from position 0 with `enc_dim = 2`, at least `n_each` codes remain and
the whole chunk of `n_each * enc_dim` words is transferred, but `fread` returns
`tsz = 8`, `data` is cut to 8 words and `tsz / enc_dim = 4` codes are
processed, not `n_each`; for every file, position and `enc_dim ≥ 1` the
returned count is at most 8. -/
theorem C16_chunk_read_counts_items :
    (fread (List.range 40000000) 0 (n_each * 2) 8).1 = 8 ∧
    (fread (List.range 40000000) 0 (n_each * 2) 8).2.2 = n_each * 2 ∧
    (chunkData 2 (fread (List.range 40000000) 0 (n_each * 2) 8).1
      (fread (List.range 40000000) 0 (n_each * 2) 8).2.1).length = 8 ∧
    (fread (List.range 40000000) 0 (n_each * 2) 8).1 / 2 = 4 ∧
    (fread (List.range 40000000) 0 (n_each * 2) 8).1 / 2 ≠ n_each ∧
    ∀ (bf : List Nat) (pos e : Nat), (fread bf pos (n_each * (e + 1)) 8).1 ≤ 8 := by
  have ht : (fread (List.range 40000000) 0 (n_each * 2) 8).1 = 8 := by
    rw [fread_items_eq _ 0 2 40000000 (List.length_range _)]
    norm_num [n_each]
  have hp : (fread (List.range 40000000) 0 (n_each * 2) 8).2.2 = n_each * 2 := by
    rw [fread_pos, List.length_range]
    norm_num [n_each]
  have hd := chunkData_eq (List.range 40000000) 0 2 (by omega)
  refine ⟨ht, hp, ?_, ?_, ?_, fun bf pos e => fread_items_le bf pos (e + 1) (by omega)⟩
  · rw [hd, ht, List.length_take, List.length_drop, List.length_range]
    omega
  · rw [ht]
  · rw [ht]
    unfold n_each
    omega

end SIFT1B

/-! ## `gen_queries` of `SIFT1B.cpp` -/

/-- The copy loop of `gen_queries` in `SIFT1B.cpp`: every access is in bounds
and every word of the result is the word that was at its place or a word of
the first `n` words. -/
theorem copy_loop_words (e ind n : Nat) (d : List Nat) (hn : e ≤ n) (hnl : n ≤ d.length)
    (hdst : ind + e ≤ d.length) (m : Nat) (hm : m ≤ e) :
    ∃ d1, (List.range m).foldlM
        (fun d' j =>
          if e - j ≤ n then
            match d'[n - (e - j)]? with
            | none => none
            | some x => if ind + j < d'.length then some (d'.set (ind + j) x) else none
          else none)
        d = some d1 ∧
      d1.length = d.length ∧
      ∀ (k x : Nat), d1[k]? = some x → d[k]? = some x ∨ x ∈ d.take n := by
  induction m with
  | zero => exact ⟨d, rfl, rfl, fun k x h => Or.inl h⟩
  | succ m ih =>
    obtain ⟨d1, hd1, hlen, hinv⟩ := ih (by omega)
    have hsrc : n - (e - m) < d1.length := by omega
    have hv : d1[n - (e - m)] ∈ d.take n := by
      rcases hinv (n - (e - m)) d1[n - (e - m)] (List.getElem?_eq_getElem hsrc) with h | h
      · have hlt : n - (e - m) < n := by omega
        rw [← List.getElem?_take_of_lt hlt] at h
        exact List.getElem?_mem h
      · exact h
    refine ⟨d1.set (ind + m) d1[n - (e - m)], ?_, by simp [hlen], ?_⟩
    · rw [List.range_succ, List.foldlM_append, hd1]
      simp only [Option.bind_eq_bind, Option.some_bind, List.foldlM_cons, List.foldlM_nil]
      rw [if_pos (by omega), List.getElem?_eq_getElem hsrc]
      simp only
      rw [if_pos (by omega)]
      rfl
    · intro k x hk
      rw [List.getElem?_set] at hk
      by_cases hkk : ind + m = k
      · rw [if_pos hkk, if_pos (by omega)] at hk
        injection hk with hk
        rw [← hk]
        exact Or.inr hv
      · rw [if_neg hkk] at hk
        exact hinv k x hk

theorem mem_of_mem_iterRange (v : List Nat) (lo hi x : Nat) (h : x ∈ iterRange v lo hi) :
    x ∈ v.take hi := by
  unfold iterRange at h
  obtain ⟨k, hk⟩ := List.mem_iff_getElem?.mp h
  rw [List.getElem?_take] at hk
  split at hk
  · rename_i hlt
    rw [List.getElem?_drop] at hk
    have : (v.take hi)[lo + k]? = some x := by
      rw [List.getElem?_take_of_lt (by omega)]
      exact hk
    exact List.getElem?_mem this
  · cases hk

namespace SIFT1B

/-- One iteration of `gen_queries` in `SIFT1B.cpp` while at least `enc_dim`
codes are left: no access is out of bounds, and every word of the new dataset
is a word of the old dataset without its last code, or one of its first `n`
words. -/
theorem genStep_words (e ind n : Nat) (d q : List Nat) (he : 1 ≤ e) (hen : e ≤ n)
    (hlen : d.length = n * e) (hind : ind < n) :
    ∃ d2, genStep e ind (d, q, n)
        = some (d2, q ++ iterRange d (ind * e) ((ind + 1) * e), n - 1) ∧
      d2.length = (n - 1) * e ∧
      (∀ x ∈ d2, x ∈ d.take (d.length - e) ∨ x ∈ d.take n) ∧
      (iterRange d (ind * e) ((ind + 1) * e)).length = e := by
  obtain ⟨n', rfl⟩ : ∃ n', n = n' + 1 := ⟨n - 1, by omega⟩
  obtain ⟨e', rfl⟩ : ∃ e', e = e' + 1 := ⟨e - 1, by omega⟩
  have hexp : (n' + 1) * (e' + 1) = n' * e' + n' + e' + 1 := by ring
  have hn1 : (n' + 1) * (e' + 1) = n' * (e' + 1) + (e' + 1) := by ring
  have hslice : (ind + 1) * (e' + 1) ≤ (n' + 1) * (e' + 1) := Nat.mul_le_mul_right _ hind
  have hi1 : (ind + 1) * (e' + 1) = ind * (e' + 1) + (e' + 1) := by ring
  obtain ⟨d1, hd1, hlen1, hinv⟩ :=
    copy_loop_words (e' + 1) ind (n' + 1) d hen (by omega) (by omega) (e' + 1) (Nat.le_refl _)
  have hpop := pop_loop d1 (e' + 1) (by omega)
  have hc : copyLast (e' + 1) ind (n' + 1) d = some d1 := hd1
  have hp : popCode (e' + 1) d1 = some (d1.take (d1.length - (e' + 1))) := hpop
  refine ⟨d1.take (d1.length - (e' + 1)), ?_, ?_, ?_, ?_⟩
  · unfold genStep
    simp only [Nat.add_sub_cancel]
    rw [if_pos (by omega), hc]
    simp only [hp]
  · simp only [List.length_take, Nat.add_sub_cancel]
    omega
  · intro x hx
    obtain ⟨k, hk⟩ := List.mem_iff_getElem?.mp hx
    rw [List.getElem?_take] at hk
    split at hk
    · rename_i hlt
      rcases hinv k x hk with h | h
      · left
        have : (d.take (d.length - (e' + 1)))[k]? = some x := by
          rw [List.getElem?_take_of_lt (by omega)]
          exact h
        exact List.getElem?_mem this
      · exact Or.inr h
    · cases hk
  · rw [iterRange_length _ _ _ (by omega)]
    omega

/-- The outer loop of `gen_queries` in `SIFT1B.cpp` for `enc_dim ≥ 2`, after
`m + 1` iterations: a word `X` that does not occur before the last code of the
dataset occurs neither in the dataset nor in the queries, when the first draw
is not the last code. -/
theorem gen_loop_words (draw : Nat → Nat) (e n : Nat) (d : List Nat) (X : Nat)
    (he : 2 ≤ e) (hlen : d.length = n * e) (m : Nat) (hmn : m + e ≤ n)
    (hdraw : ∀ i, i ≤ m → draw i < n - i) (hfirst : draw 0 + 1 < n)
    (hX : X ∉ d.take (d.length - e)) :
    ∃ d' q', (List.range (m + 1)).foldlM (fun st i => genStep e (draw i) st) (d, [], n)
        = some (d', q', n - (m + 1)) ∧
      d'.length = (n - (m + 1)) * e ∧ q'.length = (m + 1) * e ∧ X ∉ d' ∧ X ∉ q' := by
  induction m with
  | zero =>
    obtain ⟨d2, hstep, hl2, hw, hcl⟩ := genStep_words e (draw 0) n d [] (by omega) (by omega)
      hlen (by omega)
    have hsub : n ≤ d.length - e := by
      obtain ⟨n', rfl⟩ : ∃ n', n = n' + 2 := ⟨n - 2, by omega⟩
      obtain ⟨e', rfl⟩ : ∃ e', e = e' + 2 := ⟨e - 2, by omega⟩
      have : (n' + 2) * (e' + 2) = n' * e' + 2 * n' + 2 * e' + 4 := by ring
      omega
    have hcode : (draw 0 + 1) * e ≤ d.length - e := by
      have h1 : (draw 0 + 1) * e ≤ (n - 1) * e := Nat.mul_le_mul_right _ (by omega)
      have h2 : (n - 1) * e = n * e - e := by rw [Nat.sub_mul, Nat.one_mul]
      omega
    refine ⟨d2, [] ++ iterRange d (draw 0 * e) ((draw 0 + 1) * e), ?_, hl2, ?_, ?_, ?_⟩
    · have hr : List.range (0 + 1) = [0] := rfl
      rw [hr]
      simp only [List.foldlM_cons, List.foldlM_nil, hstep, Option.bind_eq_bind,
        Option.some_bind]
      rfl
    · rw [List.nil_append, hcl, Nat.zero_add, Nat.one_mul]
    · intro hmem
      rcases hw X hmem with h | h
      · exact hX h
      · exact hX (List.take_subset_take_left d hsub h)
    · intro hmem
      rw [List.nil_append] at hmem
      exact hX (List.take_subset_take_left d hcode (mem_of_mem_iterRange _ _ _ _ hmem))
  | succ m ih =>
    obtain ⟨d', q', hrun, hd', hq', hXd, hXq⟩ := ih (by omega) (fun i hi => hdraw i (by omega))
    have hind : draw (m + 1) < n - (m + 1) := hdraw (m + 1) (Nat.le_refl _)
    obtain ⟨d2, hstep, hl2, hw, hcl⟩ := genStep_words e (draw (m + 1)) (n - (m + 1)) d' q'
      (by omega) (by omega) hd' hind
    refine ⟨d2, q' ++ iterRange d' (draw (m + 1) * e) ((draw (m + 1) + 1) * e),
      ?_, ?_, ?_, ?_, ?_⟩
    · rw [List.range_succ, List.foldlM_append, hrun]
      simp only [Option.bind_eq_bind, Option.some_bind, List.foldlM_cons, List.foldlM_nil, hstep]
      rfl
    · rw [hl2]
      congr 1
    · rw [List.length_append, hq', hcl]
      ring
    · intro hmem
      rcases hw X hmem with h | h
      · exact hXd (List.mem_of_mem_take h)
      · exact hXd (List.mem_of_mem_take h)
    · intro hmem
      rcases List.mem_append.mp hmem with h | h
      · exact hXq h
      · exact hXd (List.mem_of_mem_take (mem_of_mem_iterRange _ _ _ _ h))

/-- For `enc_dim ≥ 2`, `gen_queries` of `SIFT1B.cpp` on a dataset of
`n ≥ NUM_QUERIES + enc_dim` codes returns parts of the right sizes, but a word
`X` that occurs in the last code only is lost when the first draw is not the
last code, so the codes are not kept as a multiset. -/
theorem gen_queries_loses_last_code (draw : Nat → Nat) (e n : Nat) (d : List Nat) (X : Nat)
    (he : 2 ≤ e) (hlen : d.length = n * e) (hn : NUM_QUERIES + e ≤ n)
    (hdraw : ∀ i, i < NUM_QUERIES → draw i < n - i) (hfirst : draw 0 + 1 < n)
    (hX : X ∉ d.take (d.length - e))
    (hXlast : X ∈ iterRange d ((n - 1) * e) ((n - 1 + 1) * e)) :
    ∃ d' q', gen_queries draw d e = some (d', q') ∧
      q'.length = NUM_QUERIES * e ∧ d'.length = (n - NUM_QUERIES) * e ∧
      X ∉ d' ∧ X ∉ q' ∧
      ¬ (codes d' e ++ codes q' e).Perm (codes d e) := by
  have hNQ : NUM_QUERIES = (NUM_QUERIES - 1) + 1 := by decide
  obtain ⟨d', q', hrun, hd', hq', hXd, hXq⟩ := gen_loop_words draw e n d X he hlen
    (NUM_QUERIES - 1) (by omega) (fun i hi => hdraw i (by omega)) hfirst hX
  rw [← hNQ] at hrun hd' hq'
  refine ⟨d', q', ?_, hq', hd', hXd, hXq, ?_⟩
  · unfold gen_queries
    simp only [hlen, Nat.mul_div_cancel _ (show 0 < e by omega), hrun, Option.map_some']
  · intro hperm
    have hmemL : iterRange d ((n - 1) * e) ((n - 1 + 1) * e) ∈ codes d e := by
      apply mem_codes_of_lt
      rw [hlen, Nat.mul_div_cancel _ (show 0 < e by omega)]
      omega
    have hmem := hperm.mem_iff.mpr hmemL
    have hsl : ∀ (v : List Nat) (c : List Nat), c ∈ codes v e → ∀ x ∈ c, x ∈ v := by
      intro v c hc x hx
      obtain ⟨i, _, rfl⟩ := List.mem_map.mp hc
      exact List.mem_of_mem_take (mem_of_mem_iterRange _ _ _ _ hx)
    rcases List.mem_append.mp hmem with h | h
    · exact hXd (hsl d' _ h X hXlast)
    · exact hXq (hsl q' _ h X hXlast)

theorem last_not_mem_take_range (N e : Nat) (he : 1 ≤ e) :
    N - 1 ∉ (List.range N).take ((List.range N).length - e) := by
  rw [List.length_range, List.take_range, List.mem_range]
  omega

theorem mem_iterRange_range (N lo hi x : Nat) (hlo : lo ≤ x) (hhi : x < hi) (hN : hi ≤ N) :
    x ∈ iterRange (List.range N) lo hi := by
  unfold iterRange
  apply List.getElem?_mem (n := x - lo)
  rw [List.getElem?_take_of_lt (by omega), List.getElem?_drop,
    List.getElem?_range (by omega)]
  congr 1
  omega

/-! ## Claim on `gen_queries` of `SIFT1B.cpp` -/

/-- C17: `gen_queries` of `SIFT1B.cpp` loses codes for `enc_dim = 2`.  On the
dataset of the 10002 two-word codes `(0, 1), (2, 3), ..., (20002, 20003)` with
every draw equal to 0, no access is out of bounds and the sizes are right
(`NUM_QUERIES` codes in `queries`, 2 codes left in `dataset`), but the word
20003 of the last code occurs neither in `dataset` nor in `queries`: the
codes of both together are not the codes of the original dataset. -/
theorem C17_gen_queries_loses_codes :
    ∃ d q, gen_queries (fun _ => 0) (List.range 20004) 2 = some (d, q) ∧
      q.length = NUM_QUERIES * 2 ∧ d.length = (10002 - NUM_QUERIES) * 2 ∧
      20003 ∉ d ∧ 20003 ∉ q ∧
      ¬ (codes d 2 ++ codes q 2).Perm (codes (List.range 20004) 2) :=
  gen_queries_loses_last_code (fun _ => 0) 2 10002 (List.range 20004) 20003
    (Nat.le_refl 2) (by rw [List.length_range])
    (by unfold NUM_QUERIES; omega)
    (fun i hi => by
      unfold NUM_QUERIES at hi
      show 0 < 10002 - i
      omega)
    (by
      show 0 + 1 < 10002
      omega)
    (last_not_mem_take_range 20004 2 (by omega))
    (mem_iterRange_range 20004 ((10002 - 1) * 2) ((10002 - 1 + 1) * 2) 20003
      (by omega) (by omega) (by omega))

end SIFT1B

/-! ## Claim on the idempotence of `dedup` -/

/-- C19, as stated, fails: on the sequence of `2 ^ 32` words
`0, 1, ..., 4294967295` with `enc_dim = 4` (`2 ^ 30` codes) `dedup` has no
defined result, so there is no output to compare with the result of a second
call.  For block `i = 1073741823` the bound `enc_dim * i` is `2 ^ 32 - 4` and
the bound `(i + 1) * enc_dim` wraps to 0: the iterator range is reversed. -/
theorem C19_dedup_long_sequence_counterexample :
    (List.range 4294967296).length % 4 = 0 ∧
    dedup (fun s => s) (List.range 4294967296) 4 = none ∧
    ¬ ∃ out out2 : List Nat,
        dedup (fun s => s) (List.range 4294967296) 4 = some out ∧
        dedup (fun s => s) out 4 = some out2 ∧
        out2.length = out.length ∧ out.length % 4 = 0 ∧
        out.length ≤ (List.range 4294967296).length := by
  have h : dedup (fun s => s) (List.range 4294967296) 4 = none :=
    dedup_eq_none _ _ 4 (by omega) (by norm_num)
      (by rw [List.length_range]; norm_num)
  refine ⟨by rw [List.length_range], h, ?_⟩
  rintro ⟨out, out2, hout, _⟩
  rw [h] at hout
  cases hout

/-- C19, amended: for every `enc_dim ≥ 1`, every word sequence `d` of fewer
than `2 ^ 32` words and all iteration orders, `dedup` returns an output and
`dedup` applied to that output returns a sequence of the same length with the
same set of codes; the output of `dedup` has a length that is a multiple of
`enc_dim` and at most the length of the input. -/
theorem C19_dedup_idempotent (order order' : List (List Nat) → List (List Nat))
    (horder : IterationOrder order) (horder' : IterationOrder order')
    (d : List Nat) (enc_dim : Nat) (henc : 1 ≤ enc_dim) (hlen : d.length < 2 ^ 32) :
    ∃ out out2 : List Nat,
      dedup order d enc_dim = some out ∧
      dedup order' out enc_dim = some out2 ∧
      out2.length = out.length ∧
      (∀ c : List Nat, c ∈ codes out2 enc_dim ↔ c ∈ codes out enc_dim) ∧
      out.length % enc_dim = 0 ∧
      out.length ≤ d.length := by
  have hl := uniqueCodes_length order horder d enc_dim henc
  have hl' := uniqueCodes_length order' horder' (uniqueCodes order d enc_dim) enc_dim henc
  have hc' :=
    uniqueCodes_card_codes order' horder' (uniqueCodes order d enc_dim) enc_dim henc
  have hnd := uniqueCodes_nodup_codes order horder d enc_dim henc
  have hle := uniqueCodes_length_le order horder d enc_dim henc
  refine ⟨uniqueCodes order d enc_dim,
    uniqueCodes order' (uniqueCodes order d enc_dim) enc_dim,
    dedup_eq_some order d enc_dim hlen,
    dedup_eq_some order' _ enc_dim (Nat.lt_of_le_of_lt hle hlen), ?_,
    uniqueCodes_mem_codes order' horder' _ enc_dim henc, ?_, hle⟩
  · rw [hl', hc', List.toFinset_card_of_nodup hnd, ← hl]
  · rw [hl]
    exact Nat.mul_mod_left _ _

/-- C19, amended, instance: the sequence `1 2 1 2 3 4` with `enc_dim = 2`,
the first set iterated in reverse order and the second in insertion order. -/
theorem C19_dedup_idempotent_witness :
    [1, 2, 1, 2, 3, 4].length < 2 ^ 32 ∧
    ∃ out out2 : List Nat,
      dedup List.reverse [1, 2, 1, 2, 3, 4] 2 = some out ∧
      dedup (fun s => s) out 2 = some out2 ∧
      out2.length = out.length ∧
      (∀ c : List Nat, c ∈ codes out2 2 ↔ c ∈ codes out 2) ∧
      out.length % 2 = 0 ∧
      out.length ≤ [1, 2, 1, 2, 3, 4].length :=
  ⟨by norm_num,
   C19_dedup_idempotent List.reverse (fun s => s) (fun s => List.reverse_perm s)
     (fun s => List.Perm.refl s) [1, 2, 1, 2, 3, 4] 2 (by decide) (by norm_num)⟩

namespace SIFT1B

/-! ## Claim on the router expression -/

end SIFT1B

/-! ## The sampling loop for small corpora -/

namespace SIFT1B

/-- A set of pairwise distinct indices below `n` has at most `n` elements. -/
theorem nodup_length_le (s : List Nat) (n : Nat) (hnd : s.Nodup) (hlt : ∀ x ∈ s, x < n) :
    s.length ≤ n := by
  have hsub : s.toFinset ⊆ Finset.range n := by
    intro x hx
    rw [Finset.mem_range]
    exact hlt x (List.mem_toFinset.mp hx)
  have := Finset.card_le_card hsub
  rw [List.toFinset_card_of_nodup hnd, Finset.card_range] at this
  exact this

/-- The set after any number of insertions of draws below `n_tot`. -/
theorem foldl_usetInsert_inv (n_tot : Nat) (xs s : List Nat) (hxs : ∀ x ∈ xs, x < n_tot)
    (hnd : s.Nodup) (hlt : ∀ x ∈ s, x < n_tot) :
    (xs.foldl usetInsert s).Nodup ∧ (∀ x ∈ xs.foldl usetInsert s, x < n_tot) ∧
    (xs.foldl usetInsert s).length ≤ n_tot := by
  have h1 := foldl_usetInsert_nodup xs s hnd
  have h2 : ∀ x ∈ xs.foldl usetInsert s, x < n_tot := by
    intro x hx
    rcases (foldl_usetInsert_mem xs s x).mp hx with h | h
    · exact hlt x h
    · exact hxs x h
  exact ⟨h1, h2, nodup_length_le _ n_tot h1 h2⟩

/-- While the set stays below `NUM_QUERIES` elements, `i` iterations of the
sampling loop lead from the set `s` to `s` with the next `i` draws inserted. -/
theorem sampleLoop_steps (draw : Nat → Nat) (n_tot : Nat) (hn : n_tot < NUM_QUERIES)
    (hdraw : ∀ i, draw i < n_tot) (i fuel k : Nat) (s : List Nat)
    (hnd : s.Nodup) (hlt : ∀ x ∈ s, x < n_tot) :
    sampleLoop draw (i + fuel) k s
      = sampleLoop draw fuel (k + i) (((List.range' k i).map draw).foldl usetInsert s) := by
  induction i generalizing k s with
  | zero => simp
  | succ i ih =>
    have hlen := nodup_length_le s n_tot hnd hlt
    have hf : i + 1 + fuel = (i + fuel) + 1 := by omega
    rw [hf, sampleLoop, if_pos (by omega)]
    rw [ih (k + 1) (usetInsert s (draw k)) (usetInsert_nodup s _ hnd) (by
      intro x hx
      rcases (usetInsert_mem s (draw k) x).mp hx with h | h
      · exact hlt x h
      · rw [h]; exact hdraw k)]
    rw [List.range'_succ, List.map_cons, List.foldl_cons]
    congr 1
    omega

/-- With fewer than `NUM_QUERIES` possible indices the sampling loop runs out
of every fuel. -/
theorem sampleLoop_none (draw : Nat → Nat) (n_tot : Nat) (hn : n_tot < NUM_QUERIES)
    (hdraw : ∀ i, draw i < n_tot) (fuel k : Nat) (s : List Nat)
    (hnd : s.Nodup) (hlt : ∀ x ∈ s, x < n_tot) :
    sampleLoop draw fuel k s = none := by
  induction fuel generalizing k s with
  | zero => rfl
  | succ fuel ih =>
    have hlen := nodup_length_le s n_tot hnd hlt
    rw [sampleLoop, if_pos (by omega)]
    exact ih (k + 1) (usetInsert s (draw k)) (usetInsert_nodup s _ hnd) (by
      intro x hx
      rcases (usetInsert_mem s (draw k) x).mp hx with h | h
      · exact hlt x h
      · rw [h]; exact hdraw k)

/-! ## Claim on the sampling loop for small corpora -/

/-- C20: for every `n_tot` with `0 < n_tot < NUM_QUERIES` and every stream of
draws in `[0, n_tot - 1]`: after any number `i` of iterations the loop is in
the state reached by inserting the first `i` draws, that set holds pairwise
distinct indices below `n_tot`, so its size is at most `n_tot` and below
`NUM_QUERIES`; the loop condition stays true and the loop does not end, for
any amount of fuel, so `main` never reaches the split. -/
theorem C20_sampling_never_ends (n_tot : Nat) (draw : Nat → Nat) (k : Nat)
    (hpos : 0 < n_tot) (hlt : n_tot < NUM_QUERIES) (hdraw : ∀ i, draw i ≤ n_tot - 1) :
    (∀ i fuel, sampleLoop draw (i + fuel) k []
      = sampleLoop draw fuel (k + i) (((List.range' k i).map draw).foldl usetInsert [])) ∧
    (∀ i, (((List.range' k i).map draw).foldl usetInsert []).Nodup ∧
      (∀ x ∈ ((List.range' k i).map draw).foldl usetInsert [], x < n_tot) ∧
      (((List.range' k i).map draw).foldl usetInsert []).length ≤ n_tot ∧
      (((List.range' k i).map draw).foldl usetInsert []).length < NUM_QUERIES) ∧
    (∀ fuel, sampleLoop draw fuel k [] = none) ∧
    (∀ fuel, sampleQueriesInd draw fuel = none) := by
  have hd : ∀ i, draw i < n_tot := fun i => by have := hdraw i; omega
  refine ⟨fun i fuel => ?_, fun i => ?_, fun fuel => ?_, fun fuel => ?_⟩
  · exact sampleLoop_steps draw n_tot hlt hd i fuel k [] List.nodup_nil (by simp)
  · obtain ⟨h1, h2, h3⟩ := foldl_usetInsert_inv n_tot ((List.range' k i).map draw) []
      (by
        intro x hx
        obtain ⟨j, _, rfl⟩ := List.mem_map.mp hx
        exact hd j)
      List.nodup_nil (by simp)
    exact ⟨h1, h2, h3, by omega⟩
  · exact sampleLoop_none draw n_tot hlt hd fuel k [] List.nodup_nil (by simp)
  · exact sampleLoop_none draw n_tot hlt hd fuel 1 [] List.nodup_nil (by simp)

/-- C20, instance: `n_tot = 3` and the stream `0, 1, 2, 0, 1, 2, ...`. -/
theorem C20_sampling_never_ends_witness :
    (∀ fuel, sampleLoop (fun i => i % 3) fuel 1 [] = none) ∧
    (∀ fuel, sampleQueriesInd (fun i => i % 3) fuel = none) :=
  (C20_sampling_never_ends 3 (fun i => i % 3) 1 (by omega) (by unfold NUM_QUERIES; omega)
    (fun i => by
      show i % 3 ≤ 3 - 1
      omega)).2.2

end SIFT1B
